import Mathlib

/-!
Verification of the `uuidkey` package (TypeScript).

A shallow embedding of the `uuidkey` sources (`key.ts`, `apikey.ts`,
`types.ts`) in Lean 4, together with theorems settling the testable
properties stated in the package's design document.

Strings are modelled as `List Char` (all data handled by the package is
ASCII).  Fallible operations (`new Key`, `Key.encode`, `parse`, `newAPIKey`)
are modelled as `Except`-valued functions whose error constructors mirror
the distinct `throw` sites of the source.

The package delegates to four external collaborators that are not part of
its sources: the Base32-Crockford codec of the `c32check` npm package, the
CRC32 function of the `crc` package, and Node's `randomBytes` / SHA-256.
Those are modelled from the design document's description of them (each
such definition carries a doc comment starting `Modelled from the spec:`).
-/

namespace Uuidkey

/-! ## Constants (`types.ts`) -/

namespace Constants

def KEY_LENGTH_WITH_HYPHENS : Nat := 31

def KEY_LENGTH_WITHOUT_HYPHENS : Nat := 28

def KEY_PART_LENGTH : Nat := 7

def UUID_LENGTH : Nat := 36

def CHECKSUM_LENGTH : Nat := 8

end Constants

/-! ## Generic string helpers -/

/-- JavaScript `s.slice(a, b)` on a character list. -/
def sliceStr (l : List Char) (a b : Nat) : List Char :=
  (l.drop a).take (b - a)

/-- JavaScript `s.padStart(w, c)` on a character list. -/
def padLeft (w : Nat) (c : Char) (l : List Char) : List Char :=
  List.replicate (w - l.length) c ++ l

/-- JavaScript `s.split(sep)` for a one-character separator. -/
def splitChar (sep : Char) : List Char → List (List Char)
  | [] => [[]]
  | c :: rest =>
    match splitChar sep rest with
    | [] => [[]]
    | h :: t => if c = sep then [] :: h :: t else (c :: h) :: t

/-! ## Digit machinery

Kernel-computable big-endian base-`b` digits (via fuel recursion), bridged
to Mathlib's `Nat.digits` for the proofs. -/

/-- Auxiliary fuel-driven digit accumulator. -/
def digitsBEAux (b : Nat) : Nat → Nat → List Nat → List Nat
  | 0, _, acc => acc
  | fuel + 1, m, acc => if m = 0 then acc else digitsBEAux b fuel (m / b) (m % b :: acc)

/-- Big-endian base-`b` digits of `n`, without leading zeros (`[]` for `0`). -/
def digitsBE (b n : Nat) : List Nat :=
  digitsBEAux b (n + 1) n []

/-- Big-endian digit evaluation: the value denoted by a digit list. -/
def valOfDigitsBE (b : Nat) (ds : List Nat) : Nat :=
  ds.foldl (fun a d => a * b + d) 0

/-! ## Hexadecimal helpers -/

/-- Numeric value of one hexadecimal character (0 for non-hex characters;
only ever applied to hex characters in this development). -/
def hexDigitVal (c : Char) : Nat :=
  if '0' ≤ c ∧ c ≤ '9' then c.toNat - 48
  else if 'a' ≤ c ∧ c ≤ 'f' then c.toNat - 87
  else if 'A' ≤ c ∧ c ≤ 'F' then c.toNat - 55
  else 0

/-- Value of a big-endian hex string. -/
def hexToNat (l : List Char) : Nat :=
  l.foldl (fun a c => a * 16 + hexDigitVal c) 0

/-- Lowercase hex digit characters in order. -/
def hexAlphabet : List Char := "0123456789abcdef".toList

/-- Lowercase hex character of a digit value. -/
def hexChar (d : Nat) : Char := hexAlphabet.getD d '0'

/-- JavaScript `n.toString(16)`: minimal lowercase hex rendering. -/
def natToHexLower (n : Nat) : List Char :=
  if n = 0 then ['0'] else (digitsBE 16 n).map hexChar

/-- Node `buffer.toString('hex')`: two lowercase hex characters per byte. -/
def bytesToHex (bs : List Nat) : List Char :=
  (bs.map fun b => padLeft 2 '0' (natToHexLower b)).flatten

/-- Whether a character is a hexadecimal digit (either case). -/
def isHexDigit (c : Char) : Bool :=
  decide ('0' ≤ c ∧ c ≤ '9') || decide ('a' ≤ c ∧ c ≤ 'f') || decide ('A' ≤ c ∧ c ≤ 'F')

/-! ## The Base32-Crockford collaborator -/

/-- The Crockford base-32 alphabet (uppercase). -/
def c32Alphabet : List Char := "0123456789ABCDEFGHJKMNPQRSTVWXYZ".toList

/-- Crockford character of a digit value (`0 ≤ d < 32`). -/
def c32Char (d : Nat) : Char := c32Alphabet.getD d '0'

/-- Digit value of a Crockford character, case-insensitively
(out-of-alphabet characters map to the alphabet length; only ever applied
to alphabet characters in this development). -/
def c32DigitVal (c : Char) : Nat :=
  c32Alphabet.findIdx (fun a => a = c.toUpper)

/-- Value of a big-endian Crockford string. -/
def c32ToNat (l : List Char) : Nat :=
  l.foldl (fun a c => a * 32 + c32DigitVal c) 0

/-- Modelled from the spec: `c32encode` of the external `c32check` package
(not part of this repository).  The spec describes the collaborator as
`encode(bytes) -> string` over the Crockford alphabet, expanding `n` bytes
to `⌈8n/5⌉` symbols (4 bytes to 7 symbols); we render the big-endian value
of the hex input, zero-padded to that fixed width. -/
def c32encode (hex : List Char) : List Char :=
  padLeft ((4 * hex.length + 4) / 5) '0' ((digitsBE 32 (hexToNat hex)).map c32Char)

/-- Modelled from the spec: `c32decode` of the external `c32check` package
(not part of this repository).  The spec describes the collaborator as
`decode(string) -> hex-string`, case-insensitive; `n` symbols carry
`⌊5n/8⌋` bytes (7 symbols carry 4 bytes), each rendered as two lowercase
hex characters. -/
def c32decode (s : List Char) : List Char :=
  padLeft (2 * (5 * s.length / 8)) '0' (natToHexLower (c32ToNat s))

/-! ## `Key` (`key.ts`) -/

/-- A validated Base32-Crockford key (field `value` of class `Key`). -/
structure Key where
  value : List Char
deriving DecidableEq, Repr

/-- The distinct `throw` sites of `key.ts`. -/
inductive KeyError
  /-- The `new Key(...)`: "Invalid Key format". -/
  | invalidKeyFormat
  /-- The `Key.parse`: "Invalid UUID Key". -/
  | invalidUUIDKey
  /-- The `Key.encode`: "Invalid UUID length". -/
  | invalidUUIDLength
  /-- The `toUUID`: "Invalid UUID key". -/
  | decodeInvalidKey
deriving DecidableEq, Repr

namespace Key

/-- The `Key.isValidPart` (`key.ts` lines 62-74): a 7-character segment whose
characters all pass the numeric Base32-Crockford test of the source. -/
def isValidPart (part : List Char) : Bool :=
  if part.length ≠ Constants.KEY_PART_LENGTH then false
  else
    !(part.any fun c =>
      decide (90 < c.toNat) ||
      (decide (c.toNat < 48) || (decide (57 < c.toNat) && decide (c.toNat < 65))) ||
      c = 'I' || c = 'L' || c = 'O' || c = 'U')

/-- The `Key.isValid` (`key.ts` lines 34-57). -/
def isValid (key : List Char) : Bool :=
  if key.length = Constants.KEY_LENGTH_WITH_HYPHENS then
    if ¬(key.getD 7 ' ' = '-' ∧ key.getD 15 ' ' = '-' ∧ key.getD 23 ' ' = '-') then false
    else
      isValidPart (sliceStr key 0 7) && isValidPart (sliceStr key 8 15) &&
      isValidPart (sliceStr key 16 23) && isValidPart (sliceStr key 24 31)
  else if key.length = Constants.KEY_LENGTH_WITHOUT_HYPHENS then
    isValidPart (sliceStr key 0 7) && isValidPart (sliceStr key 7 14) &&
    isValidPart (sliceStr key 14 21) && isValidPart (sliceStr key 21 28)
  else false

/-- The `new Key(value)`: validate, then store verbatim. -/
def make (value : List Char) : Except KeyError Key :=
  if isValid value then .ok ⟨value⟩ else .error .invalidKeyFormat

/-- The `Key.parse` (`key.ts` lines 17-22): validate (throwing "Invalid UUID
Key"), then invoke the constructor. -/
def parse (key : List Char) : Except KeyError Key :=
  if ¬isValid key then .error .invalidUUIDKey else make key

/-- The `Key.encodePart` (`key.ts` lines 130-134): Crockford-encode a hex
group, zero-pad to 7 characters, uppercase. -/
def encodePart (hex : List Char) : List Char :=
  (padLeft 7 '0' (c32encode hex)).map Char.toUpper

/-- The `Key.encode` (`key.ts` lines 139-153). -/
def encode (uuid : List Char) (withHyphens : Bool) : Except KeyError Key :=
  if uuid.length ≠ Constants.UUID_LENGTH then .error .invalidUUIDLength
  else
    let parts := [encodePart (sliceStr uuid 0 8),
                  encodePart (sliceStr uuid 9 13 ++ sliceStr uuid 14 18),
                  encodePart (sliceStr uuid 19 23 ++ sliceStr uuid 24 28),
                  encodePart (sliceStr uuid 28 36)]
    make (if withHyphens then List.intercalate ['-'] parts else parts.flatten)

/-- The `getParts` (`key.ts` lines 110-128). -/
def getParts (value : List Char) : List (List Char) :=
  if value.length = Constants.KEY_LENGTH_WITH_HYPHENS then
    [sliceStr value 0 7, sliceStr value 8 15, sliceStr value 16 23, sliceStr value 24 31]
  else
    [sliceStr value 0 7, sliceStr value 7 14, sliceStr value 14 21, sliceStr value 21 28]

/-- The `decode` (`key.ts` lines 89-105): decode each part (lowercased) and
reassemble the hyphenated UUID text. -/
def decodeKey (k : Key) : List Char :=
  match (getParts k.value).map (fun p => c32decode (p.map Char.toLower)) with
  | [d0, d1, d2, d3] =>
    d0 ++ ['-'] ++ d1.take 4 ++ ['-'] ++ d1.drop 4 ++ ['-'] ++
    d2.take 4 ++ ['-'] ++ d2.drop 4 ++ d3
  | _ => []

/-- The `toUUID` (`key.ts` lines 79-84): re-validate, then decode. -/
def toUUID (k : Key) : Except KeyError (List Char) :=
  if ¬isValid k.value then .error .decodeInvalidKey else .ok (decodeKey k)

end Key

/-! ## The CRC32 collaborator and UTF-8 -/

/-- One round of the CRC32 bit loop: shift right, conditionally xor the
reflected polynomial. -/
def crc32Round (c : Nat) : Nat :=
  if c % 2 = 1 then (c / 2) ^^^ 0xEDB88320 else c / 2

/-- Modelled from the spec: the CRC32 function of the external `crc`
package (not part of this repository) — standard CRC-32 (the zlib/IEEE
polynomial, reflected, initial and final value `0xFFFFFFFF`) over a byte
sequence. -/
def crc32 (data : List Nat) : Nat :=
  (data.foldl (fun crc b => crc32Round^[8] (crc ^^^ b)) 0xFFFFFFFF) ^^^ 0xFFFFFFFF

/-- UTF-8 encoding of one Unicode scalar value. -/
def utf8Char (c : Char) : List Nat :=
  let n := c.toNat
  if n < 0x80 then [n]
  else if n < 0x800 then [0xC0 ||| (n >>> 6), 0x80 ||| (n &&& 0x3F)]
  else if n < 0x10000 then
    [0xE0 ||| (n >>> 12), 0x80 ||| ((n >>> 6) &&& 0x3F), 0x80 ||| (n &&& 0x3F)]
  else
    [0xF0 ||| (n >>> 18), 0x80 ||| ((n >>> 12) &&& 0x3F),
     0x80 ||| ((n >>> 6) &&& 0x3F), 0x80 ||| (n &&& 0x3F)]

/-- UTF-8 byte sequence of a string. -/
def utf8Encode (s : List Char) : List Nat :=
  (s.map utf8Char).flatten

/-! ## `APIKey` (`apikey.ts`) -/

/-- The compound key: prefix, `Key`, entropy, checksum.  The `prefix`
field of the source is named `pfx` here (`prefix` is a Lean keyword). -/
structure APIKey where
  pfx : List Char
  key : Key
  entropy : List Char
  checksum : List Char
deriving DecidableEq, Repr

/-- The checksum computation shared by the `APIKey` constructor and
`calculateChecksum`: CRC32 over the UTF-8 bytes of
`prefix + "_" + key + entropy`, rendered `toString(16)`, uppercased,
zero-padded to 8 characters (`apikey.ts` lines 143-147). -/
def calcChecksum (pfx : List Char) (key : Key) (entropy : List Char) : List Char :=
  padLeft 8 '0'
    ((natToHexLower (crc32 (utf8Encode (pfx ++ '_' :: (key.value ++ entropy))))).map
      Char.toUpper)

/-- The `calculateChecksum(apiKey)` (`apikey.ts` lines 143-147). -/
def calculateChecksum (k : APIKey) : List Char :=
  calcChecksum k.pfx k.key k.entropy

/-- The `APIKey` constructor (`apikey.ts` lines 34-39): all fields stored
verbatim, except that a falsy (empty) checksum is replaced by the computed
one. -/
def APIKey.make (pfx : List Char) (key : Key) (entropy checksum : List Char) : APIKey :=
  { pfx := pfx, key := key, entropy := entropy,
    checksum := if checksum.isEmpty then calcChecksum pfx key entropy else checksum }

/-- The `apiKey.toString()` (`apikey.ts` lines 41-43). -/
def APIKey.toStr (k : APIKey) : List Char :=
  k.pfx ++ '_' :: (k.key.value ++ k.entropy ++ '_' :: k.checksum)

/-- Modelled from the spec: `generateEntropy` (`apikey.ts` lines 124-131)
draws `⌈size·8/5⌉` random bytes and hashes them with SHA-256; `randomBytes`
and the hash are external primitives, so the function is parameterized here
by the 32-byte digest they produce.  The digest is hex-rendered,
Base32-Crockford encoded, uppercased, and truncated to `size` characters. -/
def generateEntropy (size : Nat) (digest : List Nat) : List Char :=
  ((c32encode (bytesToHex digest)).map Char.toUpper).take size

/-! `EntropyBits` (`types.ts`): entropy segment lengths in characters. -/

namespace EntropyBits

def Bits128 : Nat := 14

def Bits160 : Nat := 21

def Bits256 : Nat := 42

end EntropyBits

/-- The distinct `throw` sites of `newAPIKey`. -/
inductive CreateError
  /-- Message "prefix cannot be empty". -/
  | emptyPrefix
  /-- propagated from `Key.encode`. -/
  | keyError (e : KeyError)
deriving DecidableEq, Repr

/-- The `newAPIKey` (`apikey.ts` lines 49-70), parameterized by the entropy
size selected by the option (`applyOptions`) and by the external random
digest consumed by `generateEntropy`.  The key is always encoded without
hyphens; the checksum is computed by the constructor (empty checksum
argument). -/
def newAPIKey (pfx uuid : List Char) (entropySize : Nat) (digest : List Nat) :
    Except CreateError APIKey :=
  if pfx.isEmpty then .error .emptyPrefix
  else
    match Key.encode uuid false with
    | .error e => .error (.keyError e)
    | .ok key => .ok (APIKey.make pfx key (generateEntropy entropySize digest) [])

/-- The `isValidChecksum` (`apikey.ts` lines 172-177): length 8 and the regex
`[0-9A-F]` on every character. -/
def isValidChecksum (checksum : List Char) : Bool :=
  if checksum.length ≠ Constants.CHECKSUM_LENGTH then false
  else checksum.all fun c => decide ('0' ≤ c ∧ c ≤ '9') || decide ('A' ≤ c ∧ c ≤ 'F')

/-- The distinct `throw` sites of `parse` (`apikey.ts` lines 86-119). -/
inductive ParseError
  /-- Message "invalid APIKey format" (empty input). -/
  | emptyInput
  /-- Message "invalid APIKey format: expected 3 parts, got N". -/
  | wrongPartCount (n : Nat)
  /-- Message "invalid prefix: cannot be empty". -/
  | emptyPrefix
  /-- Message "invalid Key format: insufficient length". -/
  | insufficientLength
  /-- Message "invalid checksum format: must be 8 hexadecimal characters". -/
  | invalidChecksumFormat
  /-- propagated from `Key.parse`. -/
  | keyError (e : KeyError)
  /-- Message "invalid checksum: expected E, got G". -/
  | checksumMismatch (expected got : List Char)
deriving DecidableEq, Repr

/-- The `parse` (`apikey.ts` lines 86-119). -/
def parse (apikey : List Char) : Except ParseError APIKey :=
  if apikey.isEmpty then .error .emptyInput
  else
    match splitChar '_' apikey with
    | [pfx, remainder, checksum] =>
      if pfx.isEmpty then .error .emptyPrefix
      else if remainder.length < Constants.KEY_LENGTH_WITHOUT_HYPHENS then
        .error .insufficientLength
      else if ¬isValidChecksum checksum then .error .invalidChecksumFormat
      else
        match Key.parse (remainder.take Constants.KEY_LENGTH_WITHOUT_HYPHENS) with
        | .error e => .error (.keyError e)
        | .ok key =>
          let entropy := remainder.drop Constants.KEY_LENGTH_WITHOUT_HYPHENS
          let apiKey := APIKey.make pfx key entropy checksum
          let expected := calculateChecksum apiKey
          if checksum ≠ expected then .error (.checksumMismatch expected checksum)
          else .ok apiKey
    | parts => .error (.wrongPartCount parts.length)

/-- Decidable equality for `Except` results (used to evaluate the model at
concrete inputs). -/
instance {e a : Type} [DecidableEq e] [DecidableEq a] : DecidableEq (Except e a)
  | .ok x, .ok y => decidable_of_iff (x = y) (by simp)
  | .ok _, .error _ => isFalse (by simp)
  | .error _, .ok _ => isFalse (by simp)
  | .error x, .error y => decidable_of_iff (x = y) (by simp)

/-! ## Spec-side definitions

These definitions follow the wording of the design document (they are not
translations of source code); they provide the vocabulary in which the
claims quantify over inputs. -/

/-- Inverse of `splitChar`: join parts with a separator. -/
def joinChar (sep : Char) : List (List Char) → List Char
  | [] => []
  | [x] => x
  | x :: y :: t => x ++ sep :: joinChar sep (y :: t)

/-- Spec-side validity of a 36-character hyphenated UUID string: five
groups of 8-4-4-4-12 hexadecimal characters joined by hyphens. -/
def isValidUUID (u : List Char) : Bool :=
  match splitChar '-' u with
  | [a, b, c, d, e] =>
    a.length = 8 && b.length = 4 && c.length = 4 && d.length = 4 && e.length = 12 &&
    (a ++ b ++ c ++ d ++ e).all isHexDigit
  | _ => false

/-- Spec-side membership in the Crockford alphabet, following the spec's
wording "0-9, A-Z excluding I, L, O, U": uppercase only. -/
def isCrockfordUpper (c : Char) : Bool :=
  (decide ('0' ≤ c ∧ c ≤ '9') || decide ('A' ≤ c ∧ c ≤ 'Z')) &&
  !(c = 'I' || c = 'L' || c = 'O' || c = 'U')

/-- Spec-side key validity, following the spec's wording with the
case-insensitivity corrected to uppercase-only: 28 characters in four
7-character uppercase-Crockford segments, or 31 characters with hyphens at
indices 7, 15, 23 and the same four segments. -/
def isValidKeySpec (s : List Char) : Bool :=
  (s.length = 28 &&
    ([sliceStr s 0 7, sliceStr s 7 14, sliceStr s 14 21, sliceStr s 21 28].all
      fun p => p.length = 7 && p.all isCrockfordUpper)) ||
  (s.length = 31 &&
    (s.getD 7 ' ' = '-' && s.getD 15 ' ' = '-' && s.getD 23 ' ' = '-') &&
    ([sliceStr s 0 7, sliceStr s 8 15, sliceStr s 16 23, sliceStr s 24 31].all
      fun p => p.length = 7 && p.all isCrockfordUpper))

/-! ## Basic infrastructure lemmas -/

lemma padLeft_length (w : Nat) (c : Char) (l : List Char) :
    (padLeft w c l).length = max w l.length := by
  simp [padLeft]; omega

lemma padLeft_length_of_le {w : Nat} {c : Char} {l : List Char} (h : l.length ≤ w) :
    (padLeft w c l).length = w := by
  rw [padLeft_length]; omega

lemma padLeft_of_length_ge {w : Nat} {c : Char} {l : List Char} (h : w ≤ l.length) :
    padLeft w c l = l := by
  simp [padLeft, Nat.sub_eq_zero_of_le h]

lemma padLeft_mem {w : Nat} {c : Char} {l : List Char} {x : Char}
    (hx : x ∈ padLeft w c l) : x = c ∨ x ∈ l := by
  rcases List.mem_append.1 hx with h | h
  · exact .inl (List.eq_of_mem_replicate h)
  · exact .inr h

/-- A character is determined by its scalar value. -/
lemma char_eq_ofNat {c : Char} {n : Nat} (h : c.toNat = n) : c = Char.ofNat n := by
  rw [← Char.ofNat_toNat c, h]

/-- Every character accepted by `isHexDigit` is one of the 22 hexadecimal
characters. -/
lemma mem_of_isHexDigit {c : Char} (h : isHexDigit c = true) :
    c ∈ "0123456789abcdefABCDEF".toList := by
  unfold isHexDigit at h
  obtain ⟨k, hk⟩ : ∃ k, c.toNat = k := ⟨c.toNat, rfl⟩
  simp only [Bool.or_eq_true, decide_eq_true_eq] at h
  have hrange : (48 ≤ k ∧ k ≤ 57) ∨ (97 ≤ k ∧ k ≤ 102) ∨ (65 ≤ k ∧ k ≤ 70) := by
    rcases h with (⟨h1, h2⟩ | ⟨h1, h2⟩) | ⟨h1, h2⟩
    · exact .inl ⟨hk ▸ h1, hk ▸ h2⟩
    · exact .inr (.inl ⟨hk ▸ h1, hk ▸ h2⟩)
    · exact .inr (.inr ⟨hk ▸ h1, hk ▸ h2⟩)
  have hc := char_eq_ofNat hk
  subst hc
  clear hk h
  rcases hrange with ⟨h1, h2⟩ | ⟨h1, h2⟩ | ⟨h1, h2⟩ <;> interval_cases k <;> decide

/-- Every character accepted by the numeric Base32-Crockford test of
`Key.isValidPart` belongs to the uppercase Crockford alphabet. -/
lemma mem_c32Alphabet_of_partChar {c : Char}
    (h : (decide (90 < c.toNat) ||
      (decide (c.toNat < 48) || (decide (57 < c.toNat) && decide (c.toNat < 65))) ||
      c = 'I' || c = 'L' || c = 'O' || c = 'U') = false) :
    c ∈ c32Alphabet := by
  obtain ⟨k, hk⟩ : ∃ k, c.toNat = k := ⟨c.toNat, rfl⟩
  simp only [Bool.or_eq_false_iff, Bool.and_eq_false_iff, decide_eq_false_iff_not,
    Nat.not_lt, decide_eq_true_eq] at h
  obtain ⟨⟨⟨⟨⟨h90, hmid1, hmid2⟩, hI⟩, hL⟩, hO⟩, hU⟩ := h
  have h48 : 48 ≤ k := hk ▸ hmid1
  have hgap : k ≤ 57 ∨ 65 ≤ k := by
    rcases hmid2 with h | h
    · exact .inl (hk ▸ h)
    · exact .inr (hk ▸ h)
  have h90' : k ≤ 90 := hk ▸ h90
  have hc := char_eq_ofNat hk
  subst hc
  have hI' : k ≠ 73 := fun hh => hI (by subst hh; rfl)
  have hL' : k ≠ 76 := fun hh => hL (by subst hh; rfl)
  have hO' : k ≠ 79 := fun hh => hO (by subst hh; rfl)
  have hU' : k ≠ 85 := fun hh => hU (by subst hh; rfl)
  clear hk hI hL hO hU hmid1 hmid2 h90
  rcases hgap with h | h
  · interval_cases k <;> decide
  · interval_cases k <;> first
      | decide
      | (exact absurd rfl hI')
      | (exact absurd rfl hL')
      | (exact absurd rfl hO')
      | (exact absurd rfl hU')

/-! ## Digit lemmas -/

lemma digitsBEAux_eq {b : Nat} (hb : 1 < b) :
    ∀ fuel m acc, m < fuel → digitsBEAux b fuel m acc = (Nat.digits b m).reverse ++ acc := by
  intro fuel
  induction fuel with
  | zero => intro m acc h; omega
  | succ fuel ih =>
    intro m acc h
    rw [digitsBEAux]
    by_cases hm : m = 0
    · simp [hm]
    · rw [if_neg hm, ih (m / b) _ (by
        have : m / b < m := Nat.div_lt_self (Nat.pos_of_ne_zero hm) hb
        omega)]
      rw [Nat.digits_def' hb (Nat.pos_of_ne_zero hm)]
      simp

/-- The fuel-based digits agree with Mathlib's `Nat.digits`, reversed. -/
lemma digitsBE_eq {b : Nat} (hb : 1 < b) (n : Nat) :
    digitsBE b n = (Nat.digits b n).reverse :=
  (digitsBEAux_eq hb (n + 1) n [] (Nat.lt_succ_self n)).trans (by simp)

/-- Big-endian digit folding computes `Nat.ofDigits` of the reverse. -/
lemma foldl_mul_add (b : Nat) (g : Char → Nat) :
    ∀ (l : List Char) (a : Nat),
      l.foldl (fun x c => x * b + g c) a = a * b ^ l.length + Nat.ofDigits b (l.map g).reverse := by
  intro l
  induction l with
  | nil => intro a; simp [Nat.ofDigits]
  | cons c t ih =>
    intro a
    rw [List.foldl_cons, ih]
    simp only [List.map_cons, List.reverse_cons, Nat.ofDigits_append, List.length_cons]
    simp [Nat.ofDigits_singleton, List.length_reverse, pow_succ]
    ring

/-- The `(digits b n).length ≤ k` whenever `n < b ^ k`. -/
lemma digits_length_le {b n k : Nat} (hb : 1 < b) (h : n < b ^ k) :
    (Nat.digits b n).length ≤ k := by
  by_cases hn : n = 0
  · simp [hn]
  · by_contra hlen
    have h1 : k + 1 ≤ (Nat.digits b n).length := by omega
    have h2 : b ^ (k + 1) ≤ b ^ (Nat.digits b n).length :=
      Nat.pow_le_pow_right (by omega) h1
    have h3 := Nat.base_pow_length_digits_le b n hb hn
    have h4 : b ^ (k + 1) ≤ b * n := le_trans h2 h3
    rw [pow_succ] at h4
    have h5 : b ^ k * b ≤ b * n := h4
    have : b ^ k ≤ n := by
      have hbpos : 0 < b := by omega
      calc b ^ k = b ^ k * b / b := by rw [Nat.mul_div_cancel _ hbpos]
        _ ≤ b * n / b := Nat.div_le_div_right h5
        _ = n := by rw [Nat.mul_div_cancel_left _ hbpos]
    omega

/-- Zero-padding the digits of the value of a fixed-width digit list
recovers the list. -/
lemma digits_pad_eq {b : Nat} (hb : 1 < b) :
    ∀ ds : List Nat, (∀ d ∈ ds, d < b) →
      List.replicate (ds.length - (Nat.digits b (Nat.ofDigits b ds.reverse)).length) 0 ++
        (Nat.digits b (Nat.ofDigits b ds.reverse)).reverse = ds := by
  intro ds
  induction ds with
  | nil => simp [Nat.ofDigits]
  | cons d t ih =>
    intro hlt
    by_cases hd : d = 0
    · subst hd
      have hv : Nat.ofDigits b (t.reverse ++ [0]) = Nat.ofDigits b t.reverse := by
        rw [Nat.ofDigits_append]; simp [Nat.ofDigits]
      have ht := ih (fun x hx => hlt x (List.mem_cons_of_mem _ hx))
      have hlen : (Nat.digits b (Nat.ofDigits b t.reverse)).length ≤ t.length := by
        apply digits_length_le hb
        have := Nat.ofDigits_lt_base_pow_length hb
          (l := t.reverse) (fun x hx => hlt x (List.mem_cons_of_mem _ (List.mem_reverse.1 hx)))
        simpa using this
      simp only [List.reverse_cons, hv, List.length_cons]
      have : t.length + 1 - (Nat.digits b (Nat.ofDigits b t.reverse)).length =
          (t.length - (Nat.digits b (Nat.ofDigits b t.reverse)).length) + 1 := by omega
      rw [this, List.replicate_succ, List.cons_append, ht]
    · have hne : t.reverse ++ [d] ≠ [] := by simp
      have hlast : (t.reverse ++ [d]).getLast hne = d := List.getLast_concat _
      have hdig : Nat.digits b (Nat.ofDigits b (t.reverse ++ [d])) = t.reverse ++ [d] := by
        apply Nat.digits_ofDigits b hb
        · intro x hx
          rcases List.mem_append.1 hx with hx | hx
          · exact hlt x (List.mem_cons_of_mem _ (List.mem_reverse.1 hx))
          · simp only [List.mem_singleton] at hx
            rw [hx]
            exact hlt _ (List.mem_cons_self _ _)
        · intro hne2
          rw [List.getLast_congr hne hne2 rfl] at hlast
          rw [hlast]; exact hd
      simp only [List.reverse_cons, hdig, List.reverse_append, List.reverse_reverse,
        List.length_cons]
      simp

/-! ## Alphabet facts (finite, decided) -/

lemma c32Char_upper : ∀ d < 32, Char.toUpper (c32Char d) = c32Char d := by decide

lemma c32DigitVal_lower_c32Char : ∀ d < 32, c32DigitVal (Char.toLower (c32Char d)) = d := by
  decide

lemma c32Char_mem : ∀ d < 32, c32Char d ∈ c32Alphabet := by decide

lemma c32Char_partChar : ∀ d < 32,
    (decide (90 < (c32Char d).toNat) ||
      (decide ((c32Char d).toNat < 48) ||
        (decide (57 < (c32Char d).toNat) && decide ((c32Char d).toNat < 65))) ||
      c32Char d = 'I' || c32Char d = 'L' || c32Char d = 'O' || c32Char d = 'U') = false := by
  decide

lemma hexDigitVal_lt : ∀ c ∈ "0123456789abcdefABCDEF".toList, hexDigitVal c < 16 := by
  decide

lemma hexChar_hexDigitVal : ∀ c ∈ "0123456789abcdefABCDEF".toList,
    hexChar (hexDigitVal c) = Char.toLower c := by
  decide

lemma hexChar_mem : ∀ d < 16, hexChar d ∈ hexAlphabet := by decide

lemma hexUpper_checksumChar : ∀ d < 16,
    (decide ('0' ≤ Char.toUpper (hexChar d) ∧ Char.toUpper (hexChar d) ≤ '9') ||
      decide ('A' ≤ Char.toUpper (hexChar d) ∧ Char.toUpper (hexChar d) ≤ 'F')) = true := by
  decide

/-! ## Rendering lemmas -/

lemma ofDigits_replicate_zero (b : Nat) : ∀ k, Nat.ofDigits b (List.replicate k 0) = 0 := by
  intro k
  induction k with
  | zero => simp [Nat.ofDigits]
  | succ k ih => rw [List.replicate_succ, Nat.ofDigits_cons, ih]; simp

/-- Zero-padding the minimal hex rendering of the value of a fixed-width
hex string recovers the string, lowercased. -/
lemma hex_render {g : List Char} {w : Nat} (hw : 0 < w) (hlen : g.length = w)
    (hhex : ∀ c ∈ g, isHexDigit c = true) :
    padLeft w '0' (natToHexLower (hexToNat g)) = g.map Char.toLower := by
  have hmem : ∀ c ∈ g, c ∈ "0123456789abcdefABCDEF".toList :=
    fun c hc => mem_of_isHexDigit (hhex c hc)
  have hdslt : ∀ d ∈ g.map hexDigitVal, d < 16 := by
    intro d hd
    obtain ⟨c, hc, rfl⟩ := List.mem_map.1 hd
    exact hexDigitVal_lt c (hmem c hc)
  have hval : hexToNat g = Nat.ofDigits 16 (g.map hexDigitVal).reverse := by
    rw [hexToNat, foldl_mul_add]; simp
  have hkey := digits_pad_eq (b := 16) (by omega) (g.map hexDigitVal) hdslt
  have hdl : (g.map hexDigitVal).length = w := by simp [hlen]
  have hmapLower : (g.map hexDigitVal).map hexChar = g.map Char.toLower := by
    rw [List.map_map]
    exact List.map_congr_left fun c hc => hexChar_hexDigitVal c (hmem c hc)
  have hc0 : hexChar 0 = '0' := rfl
  by_cases hz : hexToNat g = 0
  · have hzd : Nat.digits 16 (Nat.ofDigits 16 (g.map hexDigitVal).reverse) = [] := by
      rw [← hval, hz]; simp
    rw [hzd] at hkey
    simp only [List.length_nil, Nat.sub_zero, List.reverse_nil, List.append_nil, hdl] at hkey
    have hmap0 : g.map Char.toLower = List.replicate w '0' := by
      rw [← hmapLower, ← hkey, List.map_replicate, hc0]
    rw [natToHexLower, if_pos hz, hmap0, padLeft]
    simp only [List.length_singleton]
    rw [← List.replicate_succ']
    congr 1
    omega
  · rw [natToHexLower, if_neg hz, digitsBE_eq (by omega)]
    rw [hval] at hz ⊢
    set digs := Nat.digits 16 (Nat.ofDigits 16 (g.map hexDigitVal).reverse) with hdigs
    have hdlen : digs.length ≤ w := by
      apply digits_length_le (by omega)
      calc Nat.ofDigits 16 (g.map hexDigitVal).reverse
          < 16 ^ (g.map hexDigitVal).reverse.length :=
            Nat.ofDigits_lt_base_pow_length (by omega)
              (fun x hx => hdslt x (List.mem_reverse.1 hx))
        _ = 16 ^ w := by simp [hdl]
    rw [padLeft]
    have hrl : (digs.reverse.map hexChar).length = digs.length := by simp
    rw [hrl]
    have hrep : List.replicate (w - digs.length) '0' =
        (List.replicate (w - digs.length) 0).map hexChar := by
      rw [List.map_replicate, hc0]
    rw [hrep, ← List.map_append]
    have hkey' : List.replicate (w - digs.length) 0 ++ digs.reverse = g.map hexDigitVal := by
      rw [hdl] at hkey
      exact hkey
    rw [hkey', hmapLower]

/-- Decoding (value-level) what `encodePart` produced recovers the value. -/
lemma c32ToNat_pad_digits (v : Nat) :
    c32ToNat ((padLeft 7 '0' ((digitsBE 32 v).map c32Char)).map Char.toLower) = v := by
  rw [digitsBE_eq (by omega)]
  have hdlt : ∀ d ∈ Nat.digits 32 v, d < 32 := fun d hd => Nat.digits_lt_base (by omega) hd
  have h1 : Char.toLower '0' = '0' := by decide
  set k := 7 - ((Nat.digits 32 v).reverse.map c32Char).length with hk
  have hstep1 :
      (padLeft 7 '0' ((Nat.digits 32 v).reverse.map c32Char)).map Char.toLower =
        List.replicate k '0' ++
          (Nat.digits 32 v).reverse.map fun d => Char.toLower (c32Char d) := by
    rw [padLeft, List.map_append, List.map_replicate, h1, List.map_map]
    rfl
  rw [hstep1, c32ToNat, foldl_mul_add]
  have hstep2 :
      ((List.replicate k '0' ++
          (Nat.digits 32 v).reverse.map fun d => Char.toLower (c32Char d)).map c32DigitVal) =
        List.replicate k 0 ++ (Nat.digits 32 v).reverse := by
    rw [List.map_append, List.map_replicate, List.map_map]
    have hz : c32DigitVal '0' = 0 := by decide
    rw [hz]
    congr 1
    have hid : List.map (c32DigitVal ∘ fun d => (c32Char d).toLower)
        (Nat.digits 32 v).reverse = List.map id (Nat.digits 32 v).reverse :=
      List.map_congr_left fun d hd =>
        c32DigitVal_lower_c32Char d (hdlt d (List.mem_reverse.1 hd))
    rw [hid, List.map_id]
  rw [hstep2, List.reverse_append, List.reverse_replicate, List.reverse_reverse,
    Nat.ofDigits_append, Nat.ofDigits_digits, ofDigits_replicate_zero]
  simp

/-! ## Slice and shape helpers -/

lemma drop_append_len {x : List Char} (y : List Char) {n : Nat} (h : x.length = n) :
    (x ++ y).drop n = y := by
  rw [← h, List.drop_left]

lemma take_append_len {x : List Char} (y : List Char) {n : Nat} (h : x.length = n) :
    (x ++ y).take n = x := by
  rw [← h, List.take_left]

/-- Value bound for `hexDigitVal` (holds for every character). -/
lemma hexDigitVal_lt_16 (c : Char) : hexDigitVal c < 16 := by
  unfold hexDigitVal
  split
  · next h => have h2 : c.toNat ≤ 57 := h.2; omega
  · split
    · next h => have h2 : c.toNat ≤ 102 := h.2; omega
    · split
      · next h => have h2 : c.toNat ≤ 70 := h.2; omega
      · omega

/-- The `hexToNat` of an `n`-character string is below `16 ^ n`. -/
lemma hexToNat_lt (g : List Char) : hexToNat g < 16 ^ g.length := by
  rw [hexToNat, foldl_mul_add]
  simp only [zero_mul, zero_add]
  calc Nat.ofDigits 16 (g.map hexDigitVal).reverse
      < 16 ^ (g.map hexDigitVal).reverse.length :=
        Nat.ofDigits_lt_base_pow_length (by omega) (by
          intro x hx
          obtain ⟨c, _, rfl⟩ := List.mem_map.1 (List.mem_reverse.1 hx)
          exact hexDigitVal_lt_16 c)
    _ = 16 ^ g.length := by simp

/-- The `encodePart` on an 8-character group is the 7-digit Crockford rendering
of the group's value. -/
lemma encodePart_eq {g : List Char} (hg : g.length = 8) :
    Key.encodePart g = padLeft 7 '0' ((digitsBE 32 (hexToNat g)).map c32Char) := by
  have hdlt : ∀ d ∈ Nat.digits 32 (hexToNat g), d < 32 :=
    fun d hd => Nat.digits_lt_base (by omega) hd
  rw [Key.encodePart, c32encode, hg]
  norm_num
  rw [padLeft_of_length_ge (by rw [padLeft_length]; omega)]
  rw [padLeft, List.map_append, List.map_replicate]
  have h0 : Char.toUpper '0' = '0' := by decide
  rw [h0, digitsBE_eq (by omega), List.map_map]
  congr 1
  have : List.map (Char.toUpper ∘ c32Char) (Nat.digits 32 (hexToNat g)).reverse =
      List.map c32Char (Nat.digits 32 (hexToNat g)).reverse :=
    List.map_congr_left fun d hd =>
      c32Char_upper d (hdlt d (List.mem_reverse.1 hd))
  rw [this]

/-- The `encodePart` of an 8-character group has exactly 7 characters. -/
lemma encodePart_length {g : List Char} (hg : g.length = 8) :
    (Key.encodePart g).length = 7 := by
  rw [encodePart_eq hg, padLeft_length_of_le]
  rw [List.length_map, digitsBE_eq (by omega), List.length_reverse]
  apply digits_length_le (by omega)
  calc hexToNat g < 16 ^ g.length := hexToNat_lt g
    _ = 2 ^ 32 := by rw [hg]; norm_num
    _ ≤ 32 ^ 7 := by norm_num

/-- Every character of `encodePart` of an 8-character group is in the
uppercase Crockford alphabet. -/
lemma encodePart_chars {g : List Char} (hg : g.length = 8) :
    ∀ c ∈ Key.encodePart g, c ∈ c32Alphabet := by
  intro c hc
  rw [encodePart_eq hg] at hc
  rcases padLeft_mem hc with h | h
  · subst h; decide
  · obtain ⟨d, hd, rfl⟩ := List.mem_map.1 h
    rw [digitsBE_eq (by omega)] at hd
    exact c32Char_mem d (Nat.digits_lt_base (by omega) (List.mem_reverse.1 hd))

/-- Characters of the Crockford alphabet pass the per-character test of
`isValidPart`. -/
lemma c32_char_test : ∀ c ∈ c32Alphabet,
    (decide (90 < c.toNat) ||
      (decide (c.toNat < 48) || (decide (57 < c.toNat) && decide (c.toNat < 65))) ||
      c = 'I' || c = 'L' || c = 'O' || c = 'U') = false := by
  decide

/-- A 7-character string over the Crockford alphabet is a valid part. -/
lemma isValidPart_of_chars {p : List Char} (hlen : p.length = 7)
    (hc : ∀ c ∈ p, c ∈ c32Alphabet) : Key.isValidPart p = true := by
  rw [Key.isValidPart, if_neg (by simp [hlen, Constants.KEY_PART_LENGTH])]
  simp only [Bool.not_eq_true']
  rw [List.any_eq_false]
  intro c hcp
  simp only [Bool.not_eq_true]
  exact c32_char_test c (hc c hcp)

/-! ## Split and join lemmas -/

lemma splitChar_ne_nil (sep : Char) : ∀ u, splitChar sep u ≠ [] := by
  intro u
  cases u with
  | nil => simp [splitChar]
  | cons c rest =>
    rw [splitChar]
    rcases h : splitChar sep rest with _ | ⟨x, t⟩
    · simp
    · by_cases hc : c = sep <;> simp [hc]

lemma splitChar_cons {sep : Char} {rest x : List Char} {t : List (List Char)}
    (c : Char) (h : splitChar sep rest = x :: t) :
    splitChar sep (c :: rest) = if c = sep then [] :: x :: t else (c :: x) :: t := by
  rw [splitChar, h]

lemma joinChar_cons_head (sep c : Char) (h : List Char) (t : List (List Char)) :
    joinChar sep ((c :: h) :: t) = c :: joinChar sep (h :: t) := by
  cases t with
  | nil => simp [joinChar]
  | cons y t' => simp [joinChar]

/-- Joining the split recovers the string. -/
lemma joinChar_splitChar (sep : Char) : ∀ u, joinChar sep (splitChar sep u) = u := by
  intro u
  induction u with
  | nil => simp [splitChar, joinChar]
  | cons c rest ih =>
    rcases h : splitChar sep rest with _ | ⟨x, t⟩
    · exact absurd h (splitChar_ne_nil sep rest)
    · rw [splitChar_cons c h]
      rw [h] at ih
      by_cases hc : c = sep
      · rw [if_pos hc, joinChar, hc, ih]
        rfl
      · rw [if_neg hc, joinChar_cons_head, ih]

/-- The separator never occurs in a part of the split. -/
lemma splitChar_not_mem (sep : Char) : ∀ u p, p ∈ splitChar sep u → sep ∉ p := by
  intro u
  induction u with
  | nil => intro p hp; simp [splitChar] at hp; simp [hp]
  | cons c rest ih =>
    intro p hp
    rcases h : splitChar sep rest with _ | ⟨x, t⟩
    · exact absurd h (splitChar_ne_nil sep rest)
    · rw [splitChar_cons c h] at hp
      by_cases hc : c = sep
      · rw [if_pos hc] at hp
        rcases List.mem_cons.1 hp with h1 | h1
        · simp [h1]
        · exact ih p (h ▸ h1)
      · rw [if_neg hc] at hp
        rcases List.mem_cons.1 hp with h1 | h1
        · subst h1
          intro hmem
          rcases List.mem_cons.1 hmem with h2 | h2
          · exact hc h2.symm
          · exact ih x (h ▸ List.mem_cons_self x t) h2
        · exact ih p (h ▸ List.mem_cons_of_mem x h1)

lemma splitChar_of_not_mem {sep : Char} {a : List Char} (h : sep ∉ a) :
    splitChar sep a = [a] := by
  induction a with
  | nil => simp [splitChar]
  | cons c rest ih =>
    have hc : c ≠ sep := fun hh => h (hh ▸ List.mem_cons_self c rest)
    have hrest : sep ∉ rest := fun hh => h (List.mem_cons_of_mem c hh)
    rw [splitChar_cons c (ih hrest), if_neg hc]

lemma splitChar_append_sep {sep : Char} {a : List Char} (h : sep ∉ a) (r : List Char) :
    splitChar sep (a ++ sep :: r) = a :: splitChar sep r := by
  induction a with
  | nil =>
    rw [List.nil_append, splitChar]
    rcases hr : splitChar sep r with _ | ⟨x, t⟩
    · exact absurd hr (splitChar_ne_nil sep r)
    · simp
  | cons c rest ih =>
    have hc : c ≠ sep := fun hh => h (hh ▸ List.mem_cons_self c rest)
    have hrest : sep ∉ rest := fun hh => h (List.mem_cons_of_mem c hh)
    rcases hsp : splitChar sep (rest ++ sep :: r) with _ | ⟨x, t⟩
    · exact absurd hsp (splitChar_ne_nil sep _)
    · rw [List.cons_append, splitChar_cons c hsp, if_neg hc]
      have h2 : x :: t = rest :: splitChar sep r := hsp.symm.trans (ih hrest)
      simp only [List.cons.injEq] at h2
      rw [h2.1, h2.2]

lemma splitChar_length (sep : Char) : ∀ u, (splitChar sep u).length = u.count sep + 1 := by
  intro u
  induction u with
  | nil => simp [splitChar]
  | cons c rest ih =>
    rcases h : splitChar sep rest with _ | ⟨x, t⟩
    · exact absurd h (splitChar_ne_nil sep rest)
    · rw [splitChar_cons c h]
      rw [h] at ih
      by_cases hc : c = sep
      · rw [if_pos hc]
        simp only [List.length_cons] at ih ⊢
        simp [List.count_cons, hc, ih]
      · rw [if_neg hc]
        simp only [List.length_cons] at ih ⊢
        simp [List.count_cons, hc, ih]

/-! ## Shape lemmas for keys and UUIDs -/

lemma take_len {x : List Char} {n : Nat} (h : x.length = n) : x.take n = x := by
  rw [← h, List.take_length]

lemma slices_key28 {p0 p1 p2 p3 : List Char}
    (h0 : p0.length = 7) (h1 : p1.length = 7) (h2 : p2.length = 7) (h3 : p3.length = 7) :
    sliceStr (p0 ++ (p1 ++ (p2 ++ p3))) 0 7 = p0 ∧
    sliceStr (p0 ++ (p1 ++ (p2 ++ p3))) 7 14 = p1 ∧
    sliceStr (p0 ++ (p1 ++ (p2 ++ p3))) 14 21 = p2 ∧
    sliceStr (p0 ++ (p1 ++ (p2 ++ p3))) 21 28 = p3 ∧
    (p0 ++ (p1 ++ (p2 ++ p3))).length = 28 := by
  set V := p0 ++ (p1 ++ (p2 ++ p3)) with hV
  have d7 : V.drop 7 = p1 ++ (p2 ++ p3) := drop_append_len _ h0
  have d14 : V.drop 14 = p2 ++ p3 := by
    rw [show (14 : Nat) = 7 + 7 by norm_num, ← List.drop_drop, d7]
    exact drop_append_len _ h1
  have d21 : V.drop 21 = p3 := by
    rw [show (21 : Nat) = 14 + 7 by norm_num, ← List.drop_drop, d14]
    exact drop_append_len _ h2
  refine ⟨?_, ?_, ?_, ?_, ?_⟩
  · rw [sliceStr, List.drop_zero]
    exact take_append_len _ h0
  · rw [sliceStr, d7]
    exact take_append_len _ h1
  · rw [sliceStr, d14]
    exact take_append_len _ h2
  · rw [sliceStr, d21]
    exact take_len h3
  · simp [hV, h0, h1, h2, h3]

lemma slices_key31 {p0 p1 p2 p3 : List Char}
    (h0 : p0.length = 7) (h1 : p1.length = 7) (h2 : p2.length = 7) (h3 : p3.length = 7) :
    sliceStr (p0 ++ '-' :: (p1 ++ '-' :: (p2 ++ '-' :: p3))) 0 7 = p0 ∧
    sliceStr (p0 ++ '-' :: (p1 ++ '-' :: (p2 ++ '-' :: p3))) 8 15 = p1 ∧
    sliceStr (p0 ++ '-' :: (p1 ++ '-' :: (p2 ++ '-' :: p3))) 16 23 = p2 ∧
    sliceStr (p0 ++ '-' :: (p1 ++ '-' :: (p2 ++ '-' :: p3))) 24 31 = p3 ∧
    (p0 ++ '-' :: (p1 ++ '-' :: (p2 ++ '-' :: p3))).length = 31 ∧
    (p0 ++ '-' :: (p1 ++ '-' :: (p2 ++ '-' :: p3))).getD 7 ' ' = '-' ∧
    (p0 ++ '-' :: (p1 ++ '-' :: (p2 ++ '-' :: p3))).getD 15 ' ' = '-' ∧
    (p0 ++ '-' :: (p1 ++ '-' :: (p2 ++ '-' :: p3))).getD 23 ' ' = '-' := by
  set V := p0 ++ '-' :: (p1 ++ '-' :: (p2 ++ '-' :: p3)) with hV
  have d7 : V.drop 7 = '-' :: (p1 ++ '-' :: (p2 ++ '-' :: p3)) := drop_append_len _ h0
  have d8 : V.drop 8 = p1 ++ '-' :: (p2 ++ '-' :: p3) := by
    rw [show (8 : Nat) = 7 + 1 by norm_num, ← List.drop_drop, d7, List.drop_one, List.tail_cons]
  have d15 : V.drop 15 = '-' :: (p2 ++ '-' :: p3) := by
    rw [show (15 : Nat) = 8 + 7 by norm_num, ← List.drop_drop, d8]
    exact drop_append_len _ h1
  have d16 : V.drop 16 = p2 ++ '-' :: p3 := by
    rw [show (16 : Nat) = 15 + 1 by norm_num, ← List.drop_drop, d15, List.drop_one,
      List.tail_cons]
  have d23 : V.drop 23 = '-' :: p3 := by
    rw [show (23 : Nat) = 16 + 7 by norm_num, ← List.drop_drop, d16]
    exact drop_append_len _ h2
  have d24 : V.drop 24 = p3 := by
    rw [show (24 : Nat) = 23 + 1 by norm_num, ← List.drop_drop, d23, List.drop_one,
      List.tail_cons]
  have hget : ∀ (n : Nat) (x : Char) (t : List Char), V.drop n = x :: t → V.getD n ' ' = x := by
    intro n x t hd
    rw [List.getD_eq_getElem?_getD]
    have hq : V[n + 0]? = (V.drop n)[0]? := (List.getElem?_drop _ _ _).symm
    rw [Nat.add_zero] at hq
    rw [hq, hd]
    simp
  refine ⟨?_, ?_, ?_, ?_, ?_, ?_, ?_, ?_⟩
  · rw [sliceStr, List.drop_zero]
    exact take_append_len _ h0
  · rw [sliceStr, d8]
    exact take_append_len _ h1
  · rw [sliceStr, d16]
    exact take_append_len _ h2
  · rw [sliceStr, d24]
    exact take_len h3
  · simp [hV, h0, h1, h2, h3]
  · exact hget 7 _ _ d7
  · exact hget 15 _ _ d15
  · exact hget 23 _ _ d23

/-- A 28-character concatenation of four valid-alphabet 7-character parts
is a valid key, and `getParts` recovers the parts. -/
lemma isValid_key28 {p0 p1 p2 p3 : List Char}
    (h0 : p0.length = 7) (h1 : p1.length = 7) (h2 : p2.length = 7) (h3 : p3.length = 7)
    (c0 : ∀ c ∈ p0, c ∈ c32Alphabet) (c1 : ∀ c ∈ p1, c ∈ c32Alphabet)
    (c2 : ∀ c ∈ p2, c ∈ c32Alphabet) (c3 : ∀ c ∈ p3, c ∈ c32Alphabet) :
    Key.isValid (p0 ++ (p1 ++ (p2 ++ p3))) = true ∧
    Key.getParts (p0 ++ (p1 ++ (p2 ++ p3))) = [p0, p1, p2, p3] := by
  obtain ⟨s0, s1, s2, s3, hlen⟩ := slices_key28 h0 h1 h2 h3
  constructor
  · rw [Key.isValid, if_neg (by rw [hlen]; simp [Constants.KEY_LENGTH_WITH_HYPHENS]),
      if_pos (by rw [hlen]; rfl), s0, s1, s2, s3]
    rw [isValidPart_of_chars h0 c0, isValidPart_of_chars h1 c1,
      isValidPart_of_chars h2 c2, isValidPart_of_chars h3 c3]
    rfl
  · rw [Key.getParts, if_neg (by rw [hlen]; simp [Constants.KEY_LENGTH_WITH_HYPHENS]),
      s0, s1, s2, s3]

/-- A 31-character hyphenated join of four valid-alphabet 7-character
parts is a valid key, and `getParts` recovers the parts. -/
lemma isValid_key31 {p0 p1 p2 p3 : List Char}
    (h0 : p0.length = 7) (h1 : p1.length = 7) (h2 : p2.length = 7) (h3 : p3.length = 7)
    (c0 : ∀ c ∈ p0, c ∈ c32Alphabet) (c1 : ∀ c ∈ p1, c ∈ c32Alphabet)
    (c2 : ∀ c ∈ p2, c ∈ c32Alphabet) (c3 : ∀ c ∈ p3, c ∈ c32Alphabet) :
    Key.isValid (p0 ++ '-' :: (p1 ++ '-' :: (p2 ++ '-' :: p3))) = true ∧
    Key.getParts (p0 ++ '-' :: (p1 ++ '-' :: (p2 ++ '-' :: p3))) = [p0, p1, p2, p3] := by
  obtain ⟨s0, s1, s2, s3, hlen, g7, g15, g23⟩ := slices_key31 h0 h1 h2 h3
  constructor
  · rw [Key.isValid, if_pos (by rw [hlen]; rfl), if_neg (by
      rw [g7, g15, g23]
      simp), s0, s1, s2, s3]
    rw [isValidPart_of_chars h0 c0, isValidPart_of_chars h1 c1,
      isValidPart_of_chars h2 c2, isValidPart_of_chars h3 c3]
    rfl
  · rw [Key.getParts, if_pos (by rw [hlen]; rfl), s0, s1, s2, s3]

/-- Decomposition of a valid UUID string into its five hex groups. -/
lemma uuid_shape {u : List Char} (h : isValidUUID u = true) :
    ∃ a b c d e : List Char,
      u = a ++ '-' :: (b ++ '-' :: (c ++ '-' :: (d ++ '-' :: e))) ∧
      a.length = 8 ∧ b.length = 4 ∧ c.length = 4 ∧ d.length = 4 ∧ e.length = 12 ∧
      (∀ x ∈ a, isHexDigit x = true) ∧ (∀ x ∈ b, isHexDigit x = true) ∧
      (∀ x ∈ c, isHexDigit x = true) ∧ (∀ x ∈ d, isHexDigit x = true) ∧
      (∀ x ∈ e, isHexDigit x = true) := by
  unfold isValidUUID at h
  split at h
  case _ a b c d e hsplit =>
    refine ⟨a, b, c, d, e, ?_, ?_⟩
    · have := joinChar_splitChar '-' u
      rw [hsplit] at this
      simp only [joinChar] at this
      rw [← this]
    · simp only [Bool.and_eq_true, decide_eq_true_eq, List.all_eq_true,
        List.mem_append] at h
      obtain ⟨⟨⟨⟨⟨ha, hb⟩, hc⟩, hd⟩, he⟩, hhex⟩ := h
      exact ⟨ha, hb, hc, hd, he,
        fun x hx => hhex x (.inl (.inl (.inl (.inl hx)))),
        fun x hx => hhex x (.inl (.inl (.inl (.inr hx)))),
        fun x hx => hhex x (.inl (.inl (.inr hx))),
        fun x hx => hhex x (.inl (.inr hx)),
        fun x hx => hhex x (.inr hx)⟩
  case _ => exact absurd h (by simp)

/-- The slices taken by `Key.encode` on a decomposed UUID string. -/
lemma slices_uuid {a b c d e : List Char}
    (ha : a.length = 8) (hb : b.length = 4) (hc : c.length = 4) (hd : d.length = 4)
    (he : e.length = 12) :
    sliceStr (a ++ '-' :: (b ++ '-' :: (c ++ '-' :: (d ++ '-' :: e)))) 0 8 = a ∧
    sliceStr (a ++ '-' :: (b ++ '-' :: (c ++ '-' :: (d ++ '-' :: e)))) 9 13 = b ∧
    sliceStr (a ++ '-' :: (b ++ '-' :: (c ++ '-' :: (d ++ '-' :: e)))) 14 18 = c ∧
    sliceStr (a ++ '-' :: (b ++ '-' :: (c ++ '-' :: (d ++ '-' :: e)))) 19 23 = d ∧
    sliceStr (a ++ '-' :: (b ++ '-' :: (c ++ '-' :: (d ++ '-' :: e)))) 24 28 = e.take 4 ∧
    sliceStr (a ++ '-' :: (b ++ '-' :: (c ++ '-' :: (d ++ '-' :: e)))) 28 36 = e.drop 4 ∧
    (a ++ '-' :: (b ++ '-' :: (c ++ '-' :: (d ++ '-' :: e)))).length = 36 := by
  set V := a ++ '-' :: (b ++ '-' :: (c ++ '-' :: (d ++ '-' :: e))) with hV
  have d8 : V.drop 8 = '-' :: (b ++ '-' :: (c ++ '-' :: (d ++ '-' :: e))) :=
    drop_append_len _ ha
  have d9 : V.drop 9 = b ++ '-' :: (c ++ '-' :: (d ++ '-' :: e)) := by
    rw [show (9 : Nat) = 8 + 1 by norm_num, ← List.drop_drop, d8, List.drop_one,
      List.tail_cons]
  have d13 : V.drop 13 = '-' :: (c ++ '-' :: (d ++ '-' :: e)) := by
    rw [show (13 : Nat) = 9 + 4 by norm_num, ← List.drop_drop, d9]
    exact drop_append_len _ hb
  have d14 : V.drop 14 = c ++ '-' :: (d ++ '-' :: e) := by
    rw [show (14 : Nat) = 13 + 1 by norm_num, ← List.drop_drop, d13, List.drop_one,
      List.tail_cons]
  have d18 : V.drop 18 = '-' :: (d ++ '-' :: e) := by
    rw [show (18 : Nat) = 14 + 4 by norm_num, ← List.drop_drop, d14]
    exact drop_append_len _ hc
  have d19 : V.drop 19 = d ++ '-' :: e := by
    rw [show (19 : Nat) = 18 + 1 by norm_num, ← List.drop_drop, d18, List.drop_one,
      List.tail_cons]
  have d23 : V.drop 23 = '-' :: e := by
    rw [show (23 : Nat) = 19 + 4 by norm_num, ← List.drop_drop, d19]
    exact drop_append_len _ hd
  have d24 : V.drop 24 = e := by
    rw [show (24 : Nat) = 23 + 1 by norm_num, ← List.drop_drop, d23, List.drop_one,
      List.tail_cons]
  have d28 : V.drop 28 = e.drop 4 := by
    rw [show (28 : Nat) = 24 + 4 by norm_num, ← List.drop_drop, d24]
  refine ⟨?_, ?_, ?_, ?_, ?_, ?_, ?_⟩
  · rw [sliceStr, List.drop_zero]
    exact take_append_len _ ha
  · rw [sliceStr, d9]
    exact take_append_len _ hb
  · rw [sliceStr, d14]
    exact take_append_len _ hc
  · rw [sliceStr, d19]
    exact take_append_len _ hd
  · rw [sliceStr, d24]
  · rw [sliceStr, d28]
    exact take_len (by rw [List.length_drop, he])
  · simp [hV, ha, hb, hc, hd, he]

/-- The value slot of `Key.encode` on a valid UUID: both hyphen variants
succeed, producing the four encoded groups. -/
lemma encode_ok {a b c d e : List Char}
    (ha : a.length = 8) (hb : b.length = 4) (hc : c.length = 4) (hd : d.length = 4)
    (he : e.length = 12) :
    Key.encode (a ++ '-' :: (b ++ '-' :: (c ++ '-' :: (d ++ '-' :: e)))) false =
      .ok ⟨Key.encodePart a ++ (Key.encodePart (b ++ c) ++
        (Key.encodePart (d ++ e.take 4) ++ Key.encodePart (e.drop 4)))⟩ ∧
    Key.encode (a ++ '-' :: (b ++ '-' :: (c ++ '-' :: (d ++ '-' :: e)))) true =
      .ok ⟨Key.encodePart a ++ '-' :: (Key.encodePart (b ++ c) ++ '-' ::
        (Key.encodePart (d ++ e.take 4) ++ '-' :: Key.encodePart (e.drop 4)))⟩ := by
  obtain ⟨s1, s2, s3, s4, s5, s6, hlen⟩ := slices_uuid ha hb hc hd he
  have hg1 : (b ++ c).length = 8 := by simp [hb, hc]
  have hg2 : (d ++ e.take 4).length = 8 := by
    simp [hd, List.length_take, he]
  have hg3 : (e.drop 4).length = 8 := by simp [he]
  have hp0 := encodePart_length ha
  have hp1 := encodePart_length hg1
  have hp2 := encodePart_length hg2
  have hp3 := encodePart_length hg3
  have hc0 := encodePart_chars ha
  have hc1 := encodePart_chars hg1
  have hc2 := encodePart_chars hg2
  have hc3 := encodePart_chars hg3
  constructor
  · rw [Key.encode, if_neg (by rw [hlen]; simp [Constants.UUID_LENGTH])]
    simp only [s1, s2, s3, s4, s5, s6, Bool.false_eq_true, if_neg]
    rw [if_neg (by simp)]
    have hflat : [Key.encodePart a, Key.encodePart (b ++ c),
        Key.encodePart (d ++ e.take 4), Key.encodePart (e.drop 4)].flatten =
        Key.encodePart a ++ (Key.encodePart (b ++ c) ++
          (Key.encodePart (d ++ e.take 4) ++ Key.encodePart (e.drop 4))) := by
      simp
    rw [hflat, Key.make,
      if_pos (isValid_key28 hp0 hp1 hp2 hp3 hc0 hc1 hc2 hc3).1]
  · rw [Key.encode, if_neg (by rw [hlen]; simp [Constants.UUID_LENGTH])]
    simp only [s1, s2, s3, s4, s5, s6]
    rw [if_pos trivial]
    have hint : List.intercalate ['-'] [Key.encodePart a, Key.encodePart (b ++ c),
        Key.encodePart (d ++ e.take 4), Key.encodePart (e.drop 4)] =
        Key.encodePart a ++ '-' :: (Key.encodePart (b ++ c) ++ '-' ::
          (Key.encodePart (d ++ e.take 4) ++ '-' :: Key.encodePart (e.drop 4))) := by
      simp [List.intercalate]
    rw [hint, Key.make,
      if_pos (isValid_key31 hp0 hp1 hp2 hp3 hc0 hc1 hc2 hc3).1]

/-- Decoding one encoded group, lowercased, recovers the lowercased group. -/
lemma part_round {g : List Char} (hg : g.length = 8)
    (hhex : ∀ x ∈ g, isHexDigit x = true) :
    c32decode ((Key.encodePart g).map Char.toLower) = g.map Char.toLower := by
  rw [encodePart_eq hg, c32decode]
  have hlen : ((padLeft 7 '0' ((digitsBE 32 (hexToNat g)).map c32Char)).map
      Char.toLower).length = 7 := by
    rw [List.length_map, padLeft_length_of_le]
    rw [List.length_map, digitsBE_eq (by omega), List.length_reverse]
    apply digits_length_le (by omega)
    calc hexToNat g < 16 ^ g.length := hexToNat_lt g
      _ = 2 ^ 32 := by rw [hg]; norm_num
      _ ≤ 32 ^ 7 := by norm_num
  rw [hlen, c32ToNat_pad_digits]
  norm_num
  exact hex_render (by norm_num) hg hhex

/-- Reassembling the lowercased decoded groups yields the lowercased UUID. -/
lemma assemble_eq {a b c d e : List Char} (hb : b.length = 4) (hd : d.length = 4) :
    a.map Char.toLower ++ ['-'] ++ ((b ++ c).map Char.toLower).take 4 ++ ['-'] ++
      ((b ++ c).map Char.toLower).drop 4 ++ ['-'] ++
      ((d ++ e.take 4).map Char.toLower).take 4 ++ ['-'] ++
      ((d ++ e.take 4).map Char.toLower).drop 4 ++ (e.drop 4).map Char.toLower =
    (a ++ '-' :: (b ++ '-' :: (c ++ '-' :: (d ++ '-' :: e)))).map Char.toLower := by
  have hdash : Char.toLower '-' = '-' := by decide
  have h1 : ((b ++ c).map Char.toLower).take 4 = b.map Char.toLower := by
    rw [List.map_append]
    exact take_append_len _ (by simp [hb])
  have h2 : ((b ++ c).map Char.toLower).drop 4 = c.map Char.toLower := by
    rw [List.map_append]
    exact drop_append_len _ (by simp [hb])
  have h3 : ((d ++ e.take 4).map Char.toLower).take 4 = d.map Char.toLower := by
    rw [List.map_append]
    exact take_append_len _ (by simp [hd])
  have h4 : ((d ++ e.take 4).map Char.toLower).drop 4 = (e.take 4).map Char.toLower := by
    rw [List.map_append]
    exact drop_append_len _ (by simp [hd])
  have h5 : (e.take 4).map Char.toLower ++ (e.drop 4).map Char.toLower =
      e.map Char.toLower := by
    rw [← List.map_append, List.take_append_drop]
  rw [h1, h2, h3, h4]
  simp only [List.map_append, List.map_cons, hdash]
  rw [← h5]
  simp [List.append_assoc]

/-- Closed form of `decodeKey` once the parts are known. -/
lemma decodeKey_eq (k : Key) (p0 p1 p2 p3 : List Char)
    (h : Key.getParts k.value = [p0, p1, p2, p3]) :
    Key.decodeKey k =
      c32decode (p0.map Char.toLower) ++ ['-'] ++
      (c32decode (p1.map Char.toLower)).take 4 ++ ['-'] ++
      (c32decode (p1.map Char.toLower)).drop 4 ++ ['-'] ++
      (c32decode (p2.map Char.toLower)).take 4 ++ ['-'] ++
      (c32decode (p2.map Char.toLower)).drop 4 ++
      c32decode (p3.map Char.toLower) := by
  unfold Key.decodeKey
  rw [h]
  simp only [List.map_cons, List.map_nil]

/-- The `toUUID` of the hyphen-less encoding of a decomposed UUID. -/
lemma toUUID28 {a b c d e : List Char}
    (ha : a.length = 8) (hb : b.length = 4) (hc : c.length = 4) (hd : d.length = 4)
    (he : e.length = 12)
    (xa : ∀ x ∈ a, isHexDigit x = true) (xb : ∀ x ∈ b, isHexDigit x = true)
    (xc : ∀ x ∈ c, isHexDigit x = true) (xd : ∀ x ∈ d, isHexDigit x = true)
    (xe : ∀ x ∈ e, isHexDigit x = true) :
    Key.toUUID ⟨Key.encodePart a ++ (Key.encodePart (b ++ c) ++
        (Key.encodePart (d ++ e.take 4) ++ Key.encodePart (e.drop 4)))⟩ =
      .ok ((a ++ '-' :: (b ++ '-' :: (c ++ '-' :: (d ++ '-' :: e)))).map Char.toLower) := by
  have hg1 : (b ++ c).length = 8 := by simp [hb, hc]
  have hg2 : (d ++ e.take 4).length = 8 := by simp [hd, List.length_take, he]
  have hg3 : (e.drop 4).length = 8 := by simp [he]
  have xg1 : ∀ x ∈ b ++ c, isHexDigit x = true := by
    intro x hx
    rcases List.mem_append.1 hx with h | h
    · exact xb x h
    · exact xc x h
  have xg2 : ∀ x ∈ d ++ e.take 4, isHexDigit x = true := by
    intro x hx
    rcases List.mem_append.1 hx with h | h
    · exact xd x h
    · exact xe x (List.mem_of_mem_take h)
  have xg3 : ∀ x ∈ e.drop 4, isHexDigit x = true :=
    fun x hx => xe x (List.mem_of_mem_drop hx)
  obtain ⟨hvalid, hparts⟩ := isValid_key28 (encodePart_length ha) (encodePart_length hg1)
    (encodePart_length hg2) (encodePart_length hg3) (encodePart_chars ha)
    (encodePart_chars hg1) (encodePart_chars hg2) (encodePart_chars hg3)
  rw [Key.toUUID, if_neg (by rw [hvalid]; simp)]
  rw [decodeKey_eq _ _ _ _ _ hparts]
  rw [part_round ha xa, part_round hg1 xg1, part_round hg2 xg2, part_round hg3 xg3]
  rw [assemble_eq hb hd]

/-- The `toUUID` of the hyphenated encoding of a decomposed UUID. -/
lemma toUUID31 {a b c d e : List Char}
    (ha : a.length = 8) (hb : b.length = 4) (hc : c.length = 4) (hd : d.length = 4)
    (he : e.length = 12)
    (xa : ∀ x ∈ a, isHexDigit x = true) (xb : ∀ x ∈ b, isHexDigit x = true)
    (xc : ∀ x ∈ c, isHexDigit x = true) (xd : ∀ x ∈ d, isHexDigit x = true)
    (xe : ∀ x ∈ e, isHexDigit x = true) :
    Key.toUUID ⟨Key.encodePart a ++ '-' :: (Key.encodePart (b ++ c) ++ '-' ::
        (Key.encodePart (d ++ e.take 4) ++ '-' :: Key.encodePart (e.drop 4)))⟩ =
      .ok ((a ++ '-' :: (b ++ '-' :: (c ++ '-' :: (d ++ '-' :: e)))).map Char.toLower) := by
  have hg1 : (b ++ c).length = 8 := by simp [hb, hc]
  have hg2 : (d ++ e.take 4).length = 8 := by simp [hd, List.length_take, he]
  have hg3 : (e.drop 4).length = 8 := by simp [he]
  have xg1 : ∀ x ∈ b ++ c, isHexDigit x = true := by
    intro x hx
    rcases List.mem_append.1 hx with h | h
    · exact xb x h
    · exact xc x h
  have xg2 : ∀ x ∈ d ++ e.take 4, isHexDigit x = true := by
    intro x hx
    rcases List.mem_append.1 hx with h | h
    · exact xd x h
    · exact xe x (List.mem_of_mem_take h)
  have xg3 : ∀ x ∈ e.drop 4, isHexDigit x = true :=
    fun x hx => xe x (List.mem_of_mem_drop hx)
  obtain ⟨hvalid, hparts⟩ := isValid_key31 (encodePart_length ha) (encodePart_length hg1)
    (encodePart_length hg2) (encodePart_length hg3) (encodePart_chars ha)
    (encodePart_chars hg1) (encodePart_chars hg2) (encodePart_chars hg3)
  rw [Key.toUUID, if_neg (by rw [hvalid]; simp)]
  rw [decodeKey_eq _ _ _ _ _ hparts]
  rw [part_round ha xa, part_round hg1 xg1, part_round hg2 xg2, part_round hg3 xg3]
  rw [assemble_eq hb hd]

/-- Round trip: encoding a valid UUID (either hyphen flag) and decoding
returns the lowercased UUID. -/
lemma encode_round_trip {u : List Char} (h : isValidUUID u = true) (hy : Bool) :
    ∃ k : Key, Key.encode u hy = .ok k ∧ Key.toUUID k = .ok (u.map Char.toLower) := by
  obtain ⟨a, b, c, d, e, hshape, ha, hb, hc, hd, he, xa, xb, xc, xd, xe⟩ := uuid_shape h
  subst hshape
  obtain ⟨h28, h31⟩ := encode_ok ha hb hc hd he
  cases hy
  · exact ⟨_, h28, toUUID28 ha hb hc hd he xa xb xc xd xe⟩
  · exact ⟨_, h31, toUUID31 ha hb hc hd he xa xb xc xd xe⟩

/-! ## Further finite character facts -/

lemma toLower_idem_hex : ∀ c ∈ "0123456789abcdefABCDEF".toList,
    Char.toLower (Char.toLower c) = Char.toLower c := by
  decide

lemma c32Alphabet_isCrockfordUpper : ∀ c ∈ c32Alphabet, isCrockfordUpper c = true := by
  decide

/-- Characters of a valid UUID are hex digits or the hyphen. -/
lemma uuid_chars {u : List Char} (h : isValidUUID u = true) :
    ∀ x ∈ u, isHexDigit x = true ∨ x = '-' := by
  obtain ⟨a, b, c, d, e, hshape, _, _, _, _, _, xa, xb, xc, xd, xe⟩ := uuid_shape h
  subst hshape
  intro x hx
  rcases List.mem_append.1 hx with h1 | h1
  · exact .inl (xa x h1)
  · rcases List.mem_cons.1 h1 with h2 | h2
    · exact .inr h2
    · rcases List.mem_append.1 h2 with h3 | h3
      · exact .inl (xb x h3)
      · rcases List.mem_cons.1 h3 with h4 | h4
        · exact .inr h4
        · rcases List.mem_append.1 h4 with h5 | h5
          · exact .inl (xc x h5)
          · rcases List.mem_cons.1 h5 with h6 | h6
            · exact .inr h6
            · rcases List.mem_append.1 h6 with h7 | h7
              · exact .inl (xd x h7)
              · rcases List.mem_cons.1 h7 with h8 | h8
                · exact .inr h8
                · exact .inl (xe x h8)

/-! ## Claim theorems -/

/-- C1: for every valid 36-character hyphenated UUID string `u` and either
value of the hyphen flag, `Key.encode(u, hyphens).toUUID()` returns `u` up
to case normalization: the decoded UUID equals the input UUID when both
are compared case-insensitively (lowercased). -/
theorem claim_C1 (u : List Char) (h : isValidUUID u = true) (hy : Bool) :
    ∃ (k : Key) (u' : List Char), Key.encode u hy = .ok k ∧ Key.toUUID k = .ok u' ∧
      u'.map Char.toLower = u.map Char.toLower := by
  obtain ⟨k, henc, hdec⟩ := encode_round_trip h hy
  refine ⟨k, u.map Char.toLower, henc, hdec, ?_⟩
  rw [List.map_map]
  apply List.map_congr_left
  intro x hx
  rcases uuid_chars h x hx with hhex | hdash
  · exact toLower_idem_hex x (mem_of_isHexDigit hhex)
  · subst hdash
    decide

/-- C1 witness at the README UUID with both hyphen flags. -/
theorem claim_C1_witness :
    (isValidUUID ("d1756360-5da0-40df-9926-a76abff5601d".toList) = true) ∧
    (∃ (k : Key) (u' : List Char),
      Key.encode ("d1756360-5da0-40df-9926-a76abff5601d".toList) false = .ok k ∧
      Key.toUUID k = .ok u' ∧
      u'.map Char.toLower = ("d1756360-5da0-40df-9926-a76abff5601d".toList).map
        Char.toLower) ∧
    (∃ (k : Key) (u' : List Char),
      Key.encode ("d1756360-5da0-40df-9926-a76abff5601d".toList) true = .ok k ∧
      Key.toUUID k = .ok u' ∧
      u'.map Char.toLower = ("d1756360-5da0-40df-9926-a76abff5601d".toList).map
        Char.toLower) :=
  ⟨by decide,
    claim_C1 _ (by decide) false,
    claim_C1 _ (by decide) true⟩

/-- C6: for every valid 36-character UUID string, `Key.encode(u, false)`
has length exactly 28, and `Key.encode(u, true)` has length exactly 31
with hyphens at indices 7, 15, 23 and each 7-character segment uppercase
Crockford. -/
theorem claim_C6 (u : List Char) (h : isValidUUID u = true) :
    (∃ k : Key, Key.encode u false = .ok k ∧ k.value.length = 28) ∧
    (∃ k : Key, Key.encode u true = .ok k ∧ k.value.length = 31 ∧
      k.value.getD 7 ' ' = '-' ∧ k.value.getD 15 ' ' = '-' ∧ k.value.getD 23 ' ' = '-' ∧
      (∀ p ∈ [sliceStr k.value 0 7, sliceStr k.value 8 15, sliceStr k.value 16 23,
        sliceStr k.value 24 31], p.length = 7 ∧ ∀ x ∈ p, isCrockfordUpper x = true)) := by
  obtain ⟨a, b, c, d, e, hshape, ha, hb, hc, hd, he, xa, xb, xc, xd, xe⟩ := uuid_shape h
  subst hshape
  obtain ⟨h28, h31⟩ := encode_ok ha hb hc hd he
  have hg1 : (b ++ c).length = 8 := by simp [hb, hc]
  have hg2 : (d ++ e.take 4).length = 8 := by simp [hd, List.length_take, he]
  have hg3 : (e.drop 4).length = 8 := by simp [he]
  have hp0 := encodePart_length ha
  have hp1 := encodePart_length hg1
  have hp2 := encodePart_length hg2
  have hp3 := encodePart_length hg3
  constructor
  · refine ⟨_, h28, ?_⟩
    exact (slices_key28 hp0 hp1 hp2 hp3).2.2.2.2
  · obtain ⟨s0, s1, s2, s3, hlen, g7, g15, g23⟩ := slices_key31 hp0 hp1 hp2 hp3
    refine ⟨_, h31, hlen, g7, g15, g23, ?_⟩
    intro p hp
    have hcrock : ∀ (g : List Char), g.length = 8 → ∀ x ∈ Key.encodePart g,
        isCrockfordUpper x = true := fun g hg x hx =>
      c32Alphabet_isCrockfordUpper x (encodePart_chars hg x hx)
    simp only [List.mem_cons, List.mem_singleton, List.not_mem_nil, or_false] at hp
    rcases hp with h1 | h1 | h1 | h1 <;> subst h1
    · rw [s0]
      exact ⟨hp0, fun x hx => hcrock a ha x hx⟩
    · rw [s1]
      exact ⟨hp1, fun x hx => hcrock _ hg1 x hx⟩
    · rw [s2]
      exact ⟨hp2, fun x hx => hcrock _ hg2 x hx⟩
    · rw [s3]
      exact ⟨hp3, fun x hx => hcrock _ hg3 x hx⟩

/-- C6 witness at the README UUID. -/
theorem claim_C6_witness :
    (isValidUUID ("d1756360-5da0-40df-9926-a76abff5601d".toList) = true) ∧
    ((∃ k : Key, Key.encode ("d1756360-5da0-40df-9926-a76abff5601d".toList) false =
        .ok k ∧ k.value.length = 28) ∧
      (∃ k : Key, Key.encode ("d1756360-5da0-40df-9926-a76abff5601d".toList) true =
        .ok k ∧ k.value.length = 31 ∧
        k.value.getD 7 ' ' = '-' ∧ k.value.getD 15 ' ' = '-' ∧ k.value.getD 23 ' ' = '-' ∧
        (∀ p ∈ [sliceStr k.value 0 7, sliceStr k.value 8 15, sliceStr k.value 16 23,
          sliceStr k.value 24 31], p.length = 7 ∧ ∀ x ∈ p, isCrockfordUpper x = true))) :=
  ⟨by decide, claim_C6 _ (by decide)⟩

/-- C8: the README scenario: `d1756360-5da0-40df-9926-a76abff5601d`
encodes (no hyphens) to `38QARV01ET0G6Z2CJD9VA2ZZAR0X`, and decoding that
key returns the original UUID. -/
theorem claim_C8 :
    Key.encode ("d1756360-5da0-40df-9926-a76abff5601d".toList) false =
      .ok ⟨"38QARV01ET0G6Z2CJD9VA2ZZAR0X".toList⟩ ∧
    Key.toUUID ⟨"38QARV01ET0G6Z2CJD9VA2ZZAR0X".toList⟩ =
      .ok ("d1756360-5da0-40df-9926-a76abff5601d".toList) := by
  decide

/-- The per-character test of `isValidPart` is the negation of spec-side
uppercase-Crockford membership. -/
lemma partChar_test_eq (c : Char) :
    (decide (90 < c.toNat) ||
      (decide (c.toNat < 48) || (decide (57 < c.toNat) && decide (c.toNat < 65))) ||
      c = 'I' || c = 'L' || c = 'O' || c = 'U') = !(isCrockfordUpper c) := by
  by_cases hI : c = 'I'
  · subst hI; decide
  by_cases hL : c = 'L'
  · subst hL; decide
  by_cases hO : c = 'O'
  · subst hO; decide
  by_cases hU : c = 'U'
  · subst hU; decide
  rw [isCrockfordUpper, decide_eq_false hI, decide_eq_false hL, decide_eq_false hO,
    decide_eq_false hU]
  simp only [Bool.or_false, Bool.not_false, Bool.and_true]
  rw [Bool.eq_iff_iff]
  simp only [Bool.or_eq_true, Bool.and_eq_true, decide_eq_true_eq, Bool.not_eq_true',
    Bool.or_eq_false_iff, decide_eq_false_iff_not, not_and, not_le]
  have ra : ('0' ≤ c) = (48 ≤ c.toNat) := rfl
  have rb : ('9' < c) = (57 < c.toNat) := rfl
  have rc : ('A' ≤ c) = (65 ≤ c.toNat) := rfl
  have rd : ('Z' < c) = (90 < c.toNat) := rfl
  rw [ra, rb, rc, rd]
  omega

/-- The `isValidPart` equals the spec-side description: exactly 7 characters,
all uppercase Crockford. -/
lemma isValidPart_eq (p : List Char) :
    Key.isValidPart p = (decide (p.length = 7) && p.all isCrockfordUpper) := by
  rw [Key.isValidPart]
  by_cases hl : p.length = Constants.KEY_PART_LENGTH
  · rw [if_neg (by simp [hl])]
    have hlen7 : p.length = 7 := hl
    rw [decide_eq_true hlen7, Bool.true_and]
    rw [List.all_eq_not_any_not]
    have hfun : (fun c => !isCrockfordUpper c) = (fun c =>
        decide (90 < c.toNat) ||
        (decide (c.toNat < 48) || (decide (57 < c.toNat) && decide (c.toNat < 65))) ||
        decide (c = 'I') || decide (c = 'L') || decide (c = 'O') || decide (c = 'U')) :=
      funext fun c => (partChar_test_eq c).symm
    rw [hfun]
  · rw [if_pos (by simp [hl])]
    have hf : (decide (p.length = 7)) = false :=
      decide_eq_false (by simpa [Constants.KEY_PART_LENGTH] using hl)
    rw [hf, Bool.false_and]

/-- C2 (amended): `Key.isValid` accepts exactly the strings described by
the spec with case-insensitivity corrected to uppercase-only: 28
characters in four 7-character uppercase-Crockford segments, or 31
characters with hyphens at 7, 15, 23 and the same segments; every other
string is rejected. -/
theorem claim_C2 (s : List Char) : Key.isValid s = isValidKeySpec s := by
  rw [Key.isValid, isValidKeySpec]
  by_cases h31 : s.length = Constants.KEY_LENGTH_WITH_HYPHENS
  · rw [if_pos h31]
    have h31' : s.length = 31 := h31
    have f28 : (decide (s.length = 28)) = false := decide_eq_false (by omega)
    have t31 : (decide (s.length = 31)) = true := decide_eq_true h31'
    rw [f28, Bool.false_and, Bool.false_or, t31, Bool.true_and]
    by_cases hhy : s.getD 7 ' ' = '-' ∧ s.getD 15 ' ' = '-' ∧ s.getD 23 ' ' = '-'
    · rw [if_neg (not_not_intro hhy)]
      rw [decide_eq_true hhy.1, decide_eq_true hhy.2.1, decide_eq_true hhy.2.2]
      simp only [Bool.true_and, List.all_cons, List.all_nil, Bool.and_true]
      rw [isValidPart_eq, isValidPart_eq, isValidPart_eq, isValidPart_eq]
      simp [Bool.and_assoc]
    · rw [if_pos hhy]
      have : (decide (s.getD 7 ' ' = '-') && decide (s.getD 15 ' ' = '-') &&
          decide (s.getD 23 ' ' = '-')) = false := by
        rw [Bool.eq_false_iff]
        intro hcon
        simp only [Bool.and_eq_true, decide_eq_true_eq] at hcon
        exact hhy ⟨hcon.1.1, hcon.1.2, hcon.2⟩
      rw [this, Bool.false_and]
  · rw [if_neg h31]
    have f31 : (decide (s.length = 31)) = false :=
      decide_eq_false (by simpa [Constants.KEY_LENGTH_WITH_HYPHENS] using h31)
    by_cases h28 : s.length = Constants.KEY_LENGTH_WITHOUT_HYPHENS
    · rw [if_pos h28]
      have t28 : (decide (s.length = 28)) = true := decide_eq_true h28
      rw [t28, f31]
      simp only [Bool.true_and, Bool.false_and, Bool.or_false]
      simp only [List.all_cons, List.all_nil, Bool.and_true]
      rw [isValidPart_eq, isValidPart_eq, isValidPart_eq, isValidPart_eq]
      simp [Bool.and_assoc]
    · rw [if_neg h28]
      have f28 : (decide (s.length = 28)) = false :=
        decide_eq_false (by simpa [Constants.KEY_LENGTH_WITHOUT_HYPHENS] using h28)
      rw [f28, f31]
      simp only [Bool.false_and, Bool.false_or]

/-- C2 counterexample: a 28-character string of lowercase Crockford digits
(each uppercases into the Crockford alphabet) is rejected by `isValid`,
contradicting the claimed case-insensitivity. -/
theorem claim_C2_counterexample :
    Key.isValid (List.replicate 28 'a') = false ∧
    (List.replicate 28 'a').length = 28 ∧
    (∀ c ∈ List.replicate 28 'a', isCrockfordUpper c.toUpper = true) := by
  decide

/-! ## CRC32 and checksum lemmas -/

lemma crc32Round_lt {c : Nat} (h : c < 2 ^ 32) : crc32Round c < 2 ^ 32 := by
  rw [crc32Round]
  have hdiv : c / 2 < 2 ^ 32 := Nat.lt_of_le_of_lt (Nat.div_le_self c 2) h
  split
  · exact Nat.xor_lt_two_pow hdiv (by norm_num)
  · exact hdiv

lemma crc32Round_iter_lt {c : Nat} (n : Nat) (h : c < 2 ^ 32) :
    crc32Round^[n] c < 2 ^ 32 := by
  induction n with
  | zero => exact h
  | succ n ih => rw [Function.iterate_succ_apply']; exact crc32Round_lt ih

/-- The CRC32 of a byte sequence fits in 32 bits. -/
lemma crc32_lt {data : List Nat} (h : ∀ b ∈ data, b < 256) : crc32 data < 2 ^ 32 := by
  rw [crc32]
  have hacc : ∀ acc, acc < 2 ^ 32 →
      data.foldl (fun crc b => crc32Round^[8] (crc ^^^ b)) acc < 2 ^ 32 := by
    induction data with
    | nil => intro acc hl; exact hl
    | cons b t ih =>
      intro acc hl
      rw [List.foldl_cons]
      apply fun hh => ih (fun x hx => h x (List.mem_cons_of_mem b hx)) _ hh
      apply crc32Round_iter_lt
      exact Nat.xor_lt_two_pow hl
        (Nat.lt_trans (h b (List.mem_cons_self b t)) (by norm_num))
  exact Nat.xor_lt_two_pow (hacc _ (by norm_num)) (by norm_num)

/-- Every UTF-8 byte is below 256. -/
lemma utf8Char_lt (c : Char) : ∀ b ∈ utf8Char c, b < 256 := by
  intro b hb
  have hval : c.toNat < 1114112 := by
    rcases c.valid with h | ⟨h1, h2⟩
    · exact Nat.lt_trans h (by norm_num)
    · exact h2
  rw [utf8Char] at hb
  have hor : ∀ x y : Nat, x < 256 → y < 256 → x ||| y < 256 := fun x y hx hy =>
    Nat.or_lt_two_pow (n := 8) hx hy
  have hand : ∀ x : Nat, x &&& 63 < 256 :=
    fun x => Nat.lt_of_le_of_lt (Nat.and_le_right) (by norm_num)
  have hshift : ∀ x k m : Nat, x < m * 2 ^ k → x >>> k < m := by
    intro x k m hx
    rw [Nat.shiftRight_eq_div_pow]
    exact Nat.div_lt_of_lt_mul (by rw [Nat.mul_comm] at hx; exact hx)
  split at hb
  · next h1 =>
    simp only [List.mem_singleton] at hb
    subst hb; omega
  · split at hb
    · next h2 =>
      simp only [List.mem_cons, List.mem_singleton, List.not_mem_nil, or_false] at hb
      rcases hb with hb | hb <;> subst hb
      · exact hor _ _ (by norm_num)
          (Nat.lt_of_lt_of_le (hshift _ 6 32 (by omega)) (by norm_num))
      · exact hor _ _ (by norm_num) (hand _)
    · split at hb
      · next h3 =>
        simp only [List.mem_cons, List.mem_singleton, List.not_mem_nil, or_false] at hb
        rcases hb with hb | hb | hb <;> subst hb
        · exact hor _ _ (by norm_num)
            (Nat.lt_of_lt_of_le (hshift _ 12 16 (by omega)) (by norm_num))
        · exact hor _ _ (by norm_num) (hand _)
        · exact hor _ _ (by norm_num) (hand _)
      · simp only [List.mem_cons, List.mem_singleton, List.not_mem_nil, or_false] at hb
        rcases hb with hb | hb | hb | hb <;> subst hb
        · exact hor _ _ (by norm_num)
            (Nat.lt_of_lt_of_le (hshift _ 18 8 (by omega)) (by norm_num))
        · exact hor _ _ (by norm_num) (hand _)
        · exact hor _ _ (by norm_num) (hand _)
        · exact hor _ _ (by norm_num) (hand _)

lemma utf8Encode_lt (s : List Char) : ∀ b ∈ utf8Encode s, b < 256 := by
  intro b hb
  rw [utf8Encode] at hb
  obtain ⟨l, hl, hbl⟩ := List.mem_flatten.1 hb
  obtain ⟨c, _, rfl⟩ := List.mem_map.1 hl
  exact utf8Char_lt c b hbl

lemma natToHexLower_length_le {n w : Nat} (hw : 0 < w) (h : n < 16 ^ w) :
    (natToHexLower n).length ≤ w := by
  rw [natToHexLower]
  split
  · simpa using hw
  · rw [List.length_map, digitsBE_eq (by omega), List.length_reverse]
    exact digits_length_le (by omega) h

/-- Every character of the rendered checksum is an uppercased hex digit. -/
lemma natToHexLower_chars {n : Nat} : ∀ x ∈ natToHexLower n, ∃ d, d < 16 ∧ x = hexChar d := by
  intro x hx
  rw [natToHexLower] at hx
  split at hx
  · simp only [List.mem_singleton] at hx
    exact ⟨0, by norm_num, hx⟩
  · obtain ⟨d, hd, rfl⟩ := List.mem_map.1 hx
    rw [digitsBE_eq (by omega)] at hd
    exact ⟨d, Nat.digits_lt_base (by omega) (List.mem_reverse.1 hd), rfl⟩

lemma calcChecksum_length (pfx : List Char) (key : Key) (entropy : List Char) :
    (calcChecksum pfx key entropy).length = 8 := by
  rw [calcChecksum, padLeft_length_of_le]
  rw [List.length_map]
  exact natToHexLower_length_le (by norm_num)
    (by
      have := crc32_lt (utf8Encode_lt (pfx ++ '_' :: (key.value ++ entropy)))
      norm_num at this ⊢
      exact this)

lemma calcChecksum_chars (pfx : List Char) (key : Key) (entropy : List Char) :
    ∀ x ∈ calcChecksum pfx key entropy,
      (decide ('0' ≤ x ∧ x ≤ '9') || decide ('A' ≤ x ∧ x ≤ 'F')) = true := by
  intro x hx
  rcases padLeft_mem hx with h | h
  · subst h; decide
  · obtain ⟨y, hy, rfl⟩ := List.mem_map.1 h
    obtain ⟨d, hd, rfl⟩ := natToHexLower_chars y hy
    exact hexUpper_checksumChar d hd

lemma isValidChecksum_calcChecksum (pfx : List Char) (key : Key) (entropy : List Char) :
    isValidChecksum (calcChecksum pfx key entropy) = true := by
  rw [isValidChecksum,
    if_neg (by simp [calcChecksum_length, Constants.CHECKSUM_LENGTH])]
  rw [List.all_eq_true]
  exact calcChecksum_chars pfx key entropy

/-- C3: `calculateChecksum` is the CRC32 of the UTF-8 bytes of
`prefix + "_" + key.toString() + entropy` (no separator before the
entropy), rendered in hexadecimal, uppercased, and left-padded with `'0'`
to exactly 8 characters. -/
theorem claim_C3 (k : APIKey) :
    calculateChecksum k =
      padLeft 8 '0' ((natToHexLower (crc32 (utf8Encode
        (k.pfx ++ '_' :: (k.key.value ++ k.entropy))))).map Char.toUpper) ∧
    (calculateChecksum k).length = 8 ∧
    isValidChecksum (calculateChecksum k) = true :=
  ⟨rfl, calcChecksum_length k.pfx k.key k.entropy,
    isValidChecksum_calcChecksum k.pfx k.key k.entropy⟩

/-- C9: the `APIKey` constructor stores a non-empty checksum verbatim
(no validation); only an empty (falsy) checksum is replaced by the
computed one. -/
theorem claim_C9 :
    (∀ (pfx : List Char) (key : Key) (entropy checksum : List Char), checksum ≠ [] →
      APIKey.make pfx key entropy checksum =
        { pfx := pfx, key := key, entropy := entropy, checksum := checksum }) ∧
    (∀ (pfx : List Char) (key : Key) (entropy : List Char),
      APIKey.make pfx key entropy [] =
        { pfx := pfx, key := key, entropy := entropy,
          checksum := calculateChecksum
            { pfx := pfx, key := key, entropy := entropy, checksum := [] } }) := by
  constructor
  · intro p k e c hc
    rw [APIKey.make, if_neg (by simp [hc])]
  · intro p k e
    rw [APIKey.make, if_pos (show ([] : List Char).isEmpty = true from rfl)]
    rfl

/-- C9 witness: a syntactically invalid three-character checksum is stored
verbatim; the empty checksum is computed. -/
theorem claim_C9_witness :
    ("XYZ".toList ≠ []) ∧
    (APIKey.make ("P".toList) ⟨"38QARV01ET0G6Z2CJD9VA2ZZAR0X".toList⟩ ("E".toList)
        ("XYZ".toList) =
      { pfx := "P".toList, key := ⟨"38QARV01ET0G6Z2CJD9VA2ZZAR0X".toList⟩,
        entropy := "E".toList, checksum := "XYZ".toList }) :=
  ⟨by decide, claim_C9.1 _ _ _ _ (by decide)⟩

/-- Characters produced by `generateEntropy` are uppercase Crockford. -/
lemma generateEntropy_chars (size : Nat) (digest : List Nat) :
    ∀ x ∈ generateEntropy size digest, x ∈ c32Alphabet := by
  intro x hx
  rw [generateEntropy] at hx
  have hx2 := List.mem_of_mem_take hx
  obtain ⟨y, hy, rfl⟩ := List.mem_map.1 hx2
  rcases padLeft_mem hy with h | h
  · subst h; decide
  · obtain ⟨d, hd, rfl⟩ := List.mem_map.1 h
    rw [digitsBE_eq (by omega)] at hd
    have hdlt := Nat.digits_lt_base (by omega) (List.mem_reverse.1 hd)
    rw [c32Char_upper d hdlt]
    exact c32Char_mem d hdlt

lemma bytesToHex_length {bs : List Nat} (h : ∀ b ∈ bs, b < 256) :
    (bytesToHex bs).length = 2 * bs.length := by
  induction bs with
  | nil => simp [bytesToHex]
  | cons b t ih =>
    have hb : b < 256 := h b (List.mem_cons_self b t)
    have ht := ih fun x hx => h x (List.mem_cons_of_mem b hx)
    rw [bytesToHex, List.map_cons, List.flatten_cons]
    rw [bytesToHex] at ht
    rw [List.length_append, ht, padLeft_length_of_le
      (natToHexLower_length_le (by norm_num) (by norm_num at hb ⊢; exact hb))]
    simp [Nat.mul_succ]
    omega

/-- Length of the entropy string before truncation: 52 characters. -/
lemma generateEntropy_length {digest : List Nat} (hlen : digest.length = 32)
    (hbytes : ∀ b ∈ digest, b < 256) (size : Nat) (hsize : size ≤ 52) :
    (generateEntropy size digest).length = size := by
  rw [generateEntropy, List.length_take, List.length_map]
  have hhex : (bytesToHex digest).length = 64 := by
    rw [bytesToHex_length hbytes, hlen]
  rw [c32encode, padLeft_length_of_le, hhex]
  · omega
  · rw [List.length_map, digitsBE_eq (by omega), List.length_reverse, hhex]
    apply digits_length_le (by omega)
    calc hexToNat (bytesToHex digest) < 16 ^ (bytesToHex digest).length :=
          hexToNat_lt _
      _ = 2 ^ 256 := by rw [hhex]; norm_num
      _ ≤ 32 ^ ((4 * 64 + 4) / 5) := by norm_num

/-- C7: for every possible digest of the random source, `generateEntropy`
returns 14 characters for the 128-bit class, 21 for the 160-bit class and
42 for the 256-bit class. -/
theorem claim_C7 (digest : List Nat) (hlen : digest.length = 32)
    (hbytes : ∀ b ∈ digest, b < 256) :
    (generateEntropy EntropyBits.Bits128 digest).length = 14 ∧
    (generateEntropy EntropyBits.Bits160 digest).length = 21 ∧
    (generateEntropy EntropyBits.Bits256 digest).length = 42 :=
  ⟨generateEntropy_length hlen hbytes 14 (by norm_num),
    generateEntropy_length hlen hbytes 21 (by norm_num),
    generateEntropy_length hlen hbytes 42 (by norm_num)⟩

/-- C7 witness at the all-zero digest. -/
theorem claim_C7_witness :
    ((List.replicate 32 0).length = 32) ∧
    (generateEntropy EntropyBits.Bits128 (List.replicate 32 0)).length = 14 ∧
    (generateEntropy EntropyBits.Bits160 (List.replicate 32 0)).length = 21 ∧
    (generateEntropy EntropyBits.Bits256 (List.replicate 32 0)).length = 42 :=
  ⟨by decide, claim_C7 (List.replicate 32 0) (by decide)
    (fun b hb => by rw [List.eq_of_mem_replicate hb]; norm_num)⟩

/-! ## Parse lemmas -/

/-- The `parse` when the split has exactly three parts. -/
lemma parse_eq3 {s p r c : List Char} (hs : s.isEmpty = false)
    (hsplit : splitChar '_' s = [p, r, c]) :
    parse s =
      if p.isEmpty then .error .emptyPrefix
      else if r.length < Constants.KEY_LENGTH_WITHOUT_HYPHENS then
        .error .insufficientLength
      else if ¬isValidChecksum c then .error .invalidChecksumFormat
      else
        match Key.parse (r.take Constants.KEY_LENGTH_WITHOUT_HYPHENS) with
        | .error e => .error (.keyError e)
        | .ok key =>
          if c ≠ calculateChecksum
              (APIKey.make p key (r.drop Constants.KEY_LENGTH_WITHOUT_HYPHENS) c) then
            .error (.checksumMismatch (calculateChecksum
              (APIKey.make p key (r.drop Constants.KEY_LENGTH_WITHOUT_HYPHENS) c)) c)
          else .ok (APIKey.make p key (r.drop Constants.KEY_LENGTH_WITHOUT_HYPHENS) c) := by
  rw [parse, if_neg (by simp [hs]), hsplit]

/-- The `parse` when the split does not have exactly three parts. -/
lemma parse_wrongcount {s : List Char} (hs : s.isEmpty = false)
    (hn : (splitChar '_' s).length ≠ 3) :
    parse s = .error (.wrongPartCount (splitChar '_' s).length) := by
  rw [parse, if_neg (by simp [hs])]
  rcases hsp : splitChar '_' s with _ | ⟨a, _ | ⟨b, _ | ⟨c, _ | ⟨d, t⟩⟩⟩⟩
  · rfl
  · rfl
  · rfl
  · exact absurd (by simp [hsp]) hn
  · rfl

/-- C4: `parse` validates in this fixed order, failing with the first
applicable error: empty input; wrong part count (carrying the count);
empty prefix; insufficient length (under 28); checksum format (8 chars of
`[0-9A-F]`); `Key`'s format error on the first 28 characters of part 2;
checksum mismatch (carrying expected and actual); otherwise success with
the parsed `APIKey`. -/
theorem claim_C4 :
    (parse [] = .error .emptyInput) ∧
    (∀ s : List Char, s ≠ [] → (splitChar '_' s).length ≠ 3 →
      parse s = .error (.wrongPartCount (splitChar '_' s).length)) ∧
    (∀ (s r c : List Char), s ≠ [] → splitChar '_' s = [[], r, c] →
      parse s = .error .emptyPrefix) ∧
    (∀ (s p r c : List Char), s ≠ [] → splitChar '_' s = [p, r, c] → p ≠ [] →
      r.length < 28 → parse s = .error .insufficientLength) ∧
    (∀ (s p r c : List Char), s ≠ [] → splitChar '_' s = [p, r, c] → p ≠ [] →
      ¬r.length < 28 → isValidChecksum c = false →
      parse s = .error .invalidChecksumFormat) ∧
    (∀ (s p r c : List Char), s ≠ [] → splitChar '_' s = [p, r, c] → p ≠ [] →
      ¬r.length < 28 → isValidChecksum c = true → Key.isValid (r.take 28) = false →
      parse s = .error (.keyError .invalidUUIDKey)) ∧
    (∀ (s p r c : List Char), s ≠ [] → splitChar '_' s = [p, r, c] → p ≠ [] →
      ¬r.length < 28 → isValidChecksum c = true → Key.isValid (r.take 28) = true →
      calcChecksum p ⟨r.take 28⟩ (r.drop 28) ≠ c →
      parse s = .error (.checksumMismatch (calcChecksum p ⟨r.take 28⟩ (r.drop 28)) c)) ∧
    (∀ (s p r c : List Char), s ≠ [] → splitChar '_' s = [p, r, c] → p ≠ [] →
      ¬r.length < 28 → isValidChecksum c = true → Key.isValid (r.take 28) = true →
      calcChecksum p ⟨r.take 28⟩ (r.drop 28) = c →
      parse s = .ok (APIKey.make p ⟨r.take 28⟩ (r.drop 28) c)) := by
  have hne : ∀ s : List Char, s ≠ [] → s.isEmpty = false := by
    intro s h
    cases s
    · exact absurd rfl h
    · rfl
  have hcalc : ∀ (p r c : List Char) (key : Key),
      calculateChecksum (APIKey.make p key (r.drop 28) c) =
        calcChecksum p key (r.drop 28) := fun _ _ _ _ => rfl
  refine ⟨rfl, ?_, ?_, ?_, ?_, ?_, ?_, ?_⟩
  · intro s h1 h2
    exact parse_wrongcount (hne s h1) h2
  · intro s r c h1 h2
    rw [parse_eq3 (hne s h1) h2,
      if_pos (show ([] : List Char).isEmpty = true from rfl)]
  · intro s p r c h1 h2 h3 h4
    rw [parse_eq3 (hne s h1) h2]
    simp only [Constants.KEY_LENGTH_WITHOUT_HYPHENS]
    rw [if_neg (by simp [List.isEmpty_iff, h3]), if_pos h4]
  · intro s p r c h1 h2 h3 h4 h5
    rw [parse_eq3 (hne s h1) h2]
    simp only [Constants.KEY_LENGTH_WITHOUT_HYPHENS]
    rw [if_neg (by simp [List.isEmpty_iff, h3]), if_neg h4, if_pos (by simp [h5])]
  · intro s p r c h1 h2 h3 h4 h5 h6
    rw [parse_eq3 (hne s h1) h2]
    simp only [Constants.KEY_LENGTH_WITHOUT_HYPHENS]
    rw [if_neg (by simp [List.isEmpty_iff, h3]), if_neg h4, if_neg (by simp [h5])]
    rw [show Key.parse (r.take 28) = .error .invalidUUIDKey from by
      rw [Key.parse, if_pos (by simp [h6])]]
  · intro s p r c h1 h2 h3 h4 h5 h6 h7
    rw [parse_eq3 (hne s h1) h2]
    simp only [Constants.KEY_LENGTH_WITHOUT_HYPHENS]
    rw [if_neg (by simp [List.isEmpty_iff, h3]), if_neg h4, if_neg (by simp [h5])]
    rw [show Key.parse (r.take 28) = .ok ⟨r.take 28⟩ from by
      rw [Key.parse, if_neg (by simp [h6]), Key.make, if_pos h6]]
    show (if c ≠ calculateChecksum (APIKey.make p ⟨r.take 28⟩ (r.drop 28) c) then
        Except.error (ParseError.checksumMismatch
          (calculateChecksum (APIKey.make p ⟨r.take 28⟩ (r.drop 28) c)) c)
      else Except.ok (APIKey.make p ⟨r.take 28⟩ (r.drop 28) c)) = _
    rw [hcalc]
    rw [if_pos (fun hh => h7 (hh.symm))]
  · intro s p r c h1 h2 h3 h4 h5 h6 h7
    rw [parse_eq3 (hne s h1) h2]
    simp only [Constants.KEY_LENGTH_WITHOUT_HYPHENS]
    rw [if_neg (by simp [List.isEmpty_iff, h3]), if_neg h4, if_neg (by simp [h5])]
    rw [show Key.parse (r.take 28) = .ok ⟨r.take 28⟩ from by
      rw [Key.parse, if_neg (by simp [h6]), Key.make, if_pos h6]]
    show (if c ≠ calculateChecksum (APIKey.make p ⟨r.take 28⟩ (r.drop 28) c) then
        Except.error (ParseError.checksumMismatch
          (calculateChecksum (APIKey.make p ⟨r.take 28⟩ (r.drop 28) c)) c)
      else Except.ok (APIKey.make p ⟨r.take 28⟩ (r.drop 28) c)) = _
    rw [hcalc]
    rw [if_neg (by simp [h7])]

set_option maxRecDepth 40000 in
/-- C4 witness: each validation stage exercised at a concrete input. -/
theorem claim_C4_witness :
    parse ("AB".toList) = .error (.wrongPartCount 1) ∧
    parse ("_B_C".toList) = .error .emptyPrefix ∧
    parse ("A_B_C".toList) = .error .insufficientLength ∧
    parse ("A_38QARV01ET0G6Z2CJD9VA2ZZAR0X_BAD".toList) =
      .error .invalidChecksumFormat ∧
    parse ("A_UUUUUUUUUUUUUUUUUUUUUUUUUUUU_00000000".toList) =
      .error (.keyError .invalidUUIDKey) ∧
    parse ("A_38QARV01ET0G6Z2CJD9VA2ZZAR0X_00000000".toList) =
      .error (.checksumMismatch ("67E5C83A".toList) ("00000000".toList)) ∧
    parse ("A_38QARV01ET0G6Z2CJD9VA2ZZAR0X_67E5C83A".toList) =
      .ok (APIKey.make ("A".toList) ⟨"38QARV01ET0G6Z2CJD9VA2ZZAR0X".toList⟩ []
        ("67E5C83A".toList)) := by
  obtain ⟨c1, c2, c3, c4, c5, c6, c7, c8⟩ := claim_C4
  refine ⟨?_, ?_, ?_, ?_, ?_, ?_, ?_⟩
  · exact (c2 ("AB".toList) (by decide) (by decide)).trans (by decide)
  · exact c3 ("_B_C".toList) ("B".toList) ("C".toList) (by decide) (by decide)
  · exact c4 ("A_B_C".toList) ("A".toList) ("B".toList) ("C".toList) (by decide)
      (by decide) (by decide) (by decide)
  · exact c5 ("A_38QARV01ET0G6Z2CJD9VA2ZZAR0X_BAD".toList) ("A".toList)
      ("38QARV01ET0G6Z2CJD9VA2ZZAR0X".toList) ("BAD".toList) (by decide) (by decide)
      (by decide) (by decide) (by decide)
  · exact c6 ("A_UUUUUUUUUUUUUUUUUUUUUUUUUUUU_00000000".toList) ("A".toList)
      ("UUUUUUUUUUUUUUUUUUUUUUUUUUUU".toList) ("00000000".toList) (by decide)
      (by decide) (by decide) (by decide) (by decide) (by decide)
  · exact (c7 ("A_38QARV01ET0G6Z2CJD9VA2ZZAR0X_00000000".toList) ("A".toList)
      ("38QARV01ET0G6Z2CJD9VA2ZZAR0X".toList) ("00000000".toList) (by decide)
      (by decide) (by decide) (by decide) (by decide) (by decide)
      (by decide)).trans (by decide)
  · exact (c8 ("A_38QARV01ET0G6Z2CJD9VA2ZZAR0X_67E5C83A".toList) ("A".toList)
      ("38QARV01ET0G6Z2CJD9VA2ZZAR0X".toList) ("67E5C83A".toList) (by decide)
      (by decide) (by decide) (by decide) (by decide) (by decide)
      (by decide)).trans (by decide)

/-! ## newAPIKey lemmas -/

lemma underscore_not_c32 : ('_' : Char) ∉ c32Alphabet := by decide

lemma newAPIKey_ok {pfx uuid : List Char} (size : Nat) (digest : List Nat)
    (hp : pfx ≠ []) (hu : isValidUUID uuid = true) :
    ∃ k : Key, Key.encode uuid false = .ok k ∧
      newAPIKey pfx uuid size digest =
        .ok (APIKey.make pfx k (generateEntropy size digest) []) ∧
      k.value.length = 28 ∧ Key.isValid k.value = true ∧
      ∀ x ∈ k.value, x ∈ c32Alphabet := by
  obtain ⟨a, b, c, d, e, hshape, ha, hb, hc, hd, he, xa, xb, xc, xd, xe⟩ := uuid_shape hu
  subst hshape
  obtain ⟨h28, _⟩ := encode_ok ha hb hc hd he
  have hg1 : (b ++ c).length = 8 := by simp [hb, hc]
  have hg2 : (d ++ e.take 4).length = 8 := by simp [hd, List.length_take, he]
  have hg3 : (e.drop 4).length = 8 := by simp [he]
  have hvalid := isValid_key28 (encodePart_length ha) (encodePart_length hg1)
    (encodePart_length hg2) (encodePart_length hg3) (encodePart_chars ha)
    (encodePart_chars hg1) (encodePart_chars hg2) (encodePart_chars hg3)
  have hlen := (slices_key28 (encodePart_length ha) (encodePart_length hg1)
    (encodePart_length hg2) (encodePart_length hg3)).2.2.2.2
  refine ⟨_, h28, ?_, hlen, hvalid.1, ?_⟩
  · rw [newAPIKey, if_neg (by simp [List.isEmpty_iff, hp]), h28]
  · intro x hx
    rcases List.mem_append.1 hx with h1 | h1
    · exact encodePart_chars ha x h1
    · rcases List.mem_append.1 h1 with h2 | h2
      · exact encodePart_chars hg1 x h2
      · rcases List.mem_append.1 h2 with h3 | h3
        · exact encodePart_chars hg2 x h3
        · exact encodePart_chars hg3 x h3

/-- The compound string of a freshly constructed key splits into exactly
its three parts when the prefix is underscore-free. -/
lemma toStr_split {pfx : List Char} {key : Key} {entropy cs : List Char}
    (hpu : '_' ∉ pfx) (hkv : ∀ x ∈ key.value, x ∈ c32Alphabet)
    (hent : ∀ x ∈ entropy, x ∈ c32Alphabet)
    (hcs : ∀ x ∈ cs,
      (decide ('0' ≤ x ∧ x ≤ '9') || decide ('A' ≤ x ∧ x ≤ 'F')) = true) :
    splitChar '_' (APIKey.toStr ⟨pfx, key, entropy, cs⟩) =
      [pfx, key.value ++ entropy, cs] := by
  have hkvu : '_' ∉ key.value ++ entropy := by
    intro hmem
    rcases List.mem_append.1 hmem with h | h
    · exact underscore_not_c32 (hkv _ h)
    · exact underscore_not_c32 (hent _ h)
  have hcsu : '_' ∉ cs := by
    intro hmem
    have := hcs _ hmem
    simp at this
  have htos : APIKey.toStr ⟨pfx, key, entropy, cs⟩ =
      pfx ++ '_' :: ((key.value ++ entropy) ++ '_' :: cs) := by
    simp [APIKey.toStr]
  rw [htos, splitChar_append_sep hpu, splitChar_append_sep hkvu,
    splitChar_of_not_mem hcsu]

/-- C5: a freshly constructed `APIKey` (underscore-free non-empty prefix,
valid UUID, any entropy class and any digest of the random source)
serializes and reparses to an identical string. -/
theorem claim_C5 (pfx uuid : List Char) (size : Nat) (digest : List Nat)
    (hp : pfx ≠ []) (hpu : '_' ∉ pfx) (hu : isValidUUID uuid = true)
    (_hsize : size = EntropyBits.Bits128 ∨ size = EntropyBits.Bits160 ∨
      size = EntropyBits.Bits256) :
    ∃ k : APIKey, newAPIKey pfx uuid size digest = .ok k ∧
      ∃ k2 : APIKey, parse k.toStr = .ok k2 ∧ k2.toStr = k.toStr := by
  obtain ⟨key, henc, hnew, hklen, hkvalid, hkchars⟩ := newAPIKey_ok size digest hp hu
  have hmk : APIKey.make pfx key (generateEntropy size digest) [] =
      ⟨pfx, key, generateEntropy size digest,
        calcChecksum pfx key (generateEntropy size digest)⟩ := rfl
  rw [hmk] at hnew
  refine ⟨_, hnew, ?_⟩
  set entropy := generateEntropy size digest with hentropy
  set cs := calcChecksum pfx key entropy with hcs
  have hsplit := toStr_split hpu hkchars (generateEntropy_chars size digest)
    (calcChecksum_chars pfx key entropy)
  have hsne : (APIKey.toStr ⟨pfx, key, entropy, cs⟩).isEmpty = false := by
    rcases pfx with _ | ⟨x, t⟩
    · exact absurd rfl hp
    · rfl
  rw [parse_eq3 hsne hsplit]
  simp only [Constants.KEY_LENGTH_WITHOUT_HYPHENS]
  rw [if_neg (by simp [List.isEmpty_iff, hp]),
    if_neg (by simp [List.length_append, hklen]),
    if_neg (by simp [hcs, isValidChecksum_calcChecksum])]
  rw [show Key.parse ((key.value ++ entropy).take 28) = .ok key from by
    rw [take_append_len _ hklen, Key.parse, if_neg (by simp [hkvalid]), Key.make,
      if_pos hkvalid]]
  have hdrop : (key.value ++ entropy).drop 28 = entropy := drop_append_len _ hklen
  rw [hdrop]
  have hcsne : cs.isEmpty = false := by
    have h8 := calcChecksum_length pfx key entropy
    rw [← hcs] at h8
    rcases cs with _ | ⟨x, t⟩
    · simp at h8
    · rfl
  have hmk2 : APIKey.make pfx key entropy cs = ⟨pfx, key, entropy, cs⟩ := by
    rw [APIKey.make, if_neg (by simp [hcsne])]
  refine ⟨⟨pfx, key, entropy, cs⟩, ?_, rfl⟩
  show (if cs ≠ calculateChecksum (APIKey.make pfx key entropy cs) then
      Except.error (ParseError.checksumMismatch
        (calculateChecksum (APIKey.make pfx key entropy cs)) cs)
    else Except.ok (APIKey.make pfx key entropy cs)) =
    Except.ok ⟨pfx, key, entropy, cs⟩
  rw [hmk2]
  rw [if_neg (by
    simp only [ne_eq, not_not]
    rfl)]

set_option maxRecDepth 40000 in
/-- C5 witness at concrete inputs. -/
theorem claim_C5_witness :
    ("MYPREFIX".toList ≠ []) ∧ ('_' ∉ "MYPREFIX".toList) ∧
    (isValidUUID ("d1756360-5da0-40df-9926-a76abff5601d".toList) = true) ∧
    (∃ k : APIKey, newAPIKey ("MYPREFIX".toList)
        ("d1756360-5da0-40df-9926-a76abff5601d".toList) EntropyBits.Bits160
        (List.range 32) = .ok k ∧
      ∃ k2 : APIKey, parse k.toStr = .ok k2 ∧ k2.toStr = k.toStr) :=
  ⟨by decide, by decide, by decide,
    claim_C5 _ _ _ _ (by decide) (by decide) (by decide) (.inr (.inl rfl))⟩

/-- C10: `newAPIKey` accepts a prefix containing an underscore, but
`parse` then fails on the serialized key with the wrong-part-count error
(at least 4 parts), so such keys are constructible yet never reparseable. -/
theorem claim_C10 (pfx uuid : List Char) (size : Nat) (digest : List Nat)
    (hp : pfx ≠ []) (hpu : '_' ∈ pfx) (hu : isValidUUID uuid = true) :
    ∃ k : APIKey, newAPIKey pfx uuid size digest = .ok k ∧
      parse k.toStr = .error (.wrongPartCount (pfx.count '_' + 3)) ∧
      4 ≤ pfx.count '_' + 3 := by
  obtain ⟨key, henc, hnew, hklen, hkvalid, hkchars⟩ := newAPIKey_ok size digest hp hu
  have hmk : APIKey.make pfx key (generateEntropy size digest) [] =
      ⟨pfx, key, generateEntropy size digest,
        calcChecksum pfx key (generateEntropy size digest)⟩ := rfl
  rw [hmk] at hnew
  refine ⟨_, hnew, ?_, ?_⟩
  · set entropy := generateEntropy size digest with hentropy
    set cs := calcChecksum pfx key entropy with hcs
    have hsne : (APIKey.toStr ⟨pfx, key, entropy, cs⟩).isEmpty = false := by
      rcases pfx with _ | ⟨x, t⟩
      · exact absurd rfl hp
      · rfl
    have hckv : key.value.count '_' = 0 := List.count_eq_zero.2
      (fun hm => underscore_not_c32 (hkchars _ hm))
    have hcen : entropy.count '_' = 0 := List.count_eq_zero.2
      (fun hm => underscore_not_c32 (generateEntropy_chars size digest _ hm))
    have hccs : cs.count '_' = 0 := List.count_eq_zero.2 (fun hm => by
      have := calcChecksum_chars pfx key entropy _ hm
      simp at this)
    have hcount : (APIKey.toStr ⟨pfx, key, entropy, cs⟩).count '_' =
        pfx.count '_' + 2 := by
      have htos : APIKey.toStr ⟨pfx, key, entropy, cs⟩ =
          pfx ++ '_' :: (key.value ++ (entropy ++ '_' :: cs)) := by
        simp [APIKey.toStr]
      rw [htos, List.count_append, List.count_cons, List.count_append,
        List.count_append, List.count_cons, hckv, hcen, hccs]
      simp
    have hlen : (splitChar '_' (APIKey.toStr ⟨pfx, key, entropy, cs⟩)).length =
        pfx.count '_' + 3 := by
      rw [splitChar_length, hcount]
    have hpos : 0 < pfx.count '_' := List.count_pos_iff.2 hpu
    rw [parse_wrongcount hsne (by omega), hlen]
  · have hpos : 0 < pfx.count '_' := List.count_pos_iff.2 hpu
    omega

set_option maxRecDepth 40000 in
/-- C10 witness at concrete inputs. -/
theorem claim_C10_witness :
    ("A_B".toList ≠ []) ∧ ('_' ∈ "A_B".toList) ∧
    (isValidUUID ("d1756360-5da0-40df-9926-a76abff5601d".toList) = true) ∧
    (∃ k : APIKey, newAPIKey ("A_B".toList)
        ("d1756360-5da0-40df-9926-a76abff5601d".toList) EntropyBits.Bits128
        (List.range 32) = .ok k ∧
      parse k.toStr = .error (.wrongPartCount (("A_B".toList).count '_' + 3)) ∧
      4 ≤ ("A_B".toList).count '_' + 3) :=
  ⟨by decide, by decide, by decide,
    claim_C10 _ _ _ _ (by decide) (by decide) (by decide)⟩

end Uuidkey
